import Mathlib

/-!
# Spectral clustering (`cilantro/spectral_clustering.hpp`)

A shallow embedding of `cilantro::SpectralClustering`.

* `ScalarT` values are the elements of a linearly ordered field `α` (the rationals
  for concrete runs).  Machine epsilon, `sqrt`, `rsqrt` and the two Eigen
  eigensolvers are library code and enter as parameters (`ScalarOps`).
* The two subtractions inside `estimate_number_of_clusters_` are `ScalarT`
  subtractions, which round; they are the parameter `sub`, and every general
  theorem about the estimator holds for every such function.  Concrete runs use
  `binary64Sub`, the IEEE 754 subtraction of `double`.  Comparisons are exact.
  The estimator itself only needs a linear order, so infinities may be values.
* `size_t` values are natural numbers; the one addition that could wrap
  (`max_num_clusters+1`) is reduced modulo `2^64`.
* Eigen range violations (`head`, `leftCols`, reading entry `0` of an empty
  vector) make the embedded function return `none`.
-/

namespace cilantro

/-- The enum `GraphLaplacianType`. -/
inductive GraphLaplacianType where
  | UNNORMALIZED
  | NORMALIZED_SYMMETRIC
  | NORMALIZED_RANDOM_WALK
  deriving DecidableEq, Repr

/-! ## `estimate_number_of_clusters_` -/

/-- Local variables of the loop in `estimate_number_of_clusters_`.  For `min_val` the value
`none` stands for the seed `+infinity`, for `max_val` it stands for the seed `-infinity`. -/
structure EstimatorState (α : Type) where
  max_diff : α
  max_ind : Nat
  min_val : Option α
  max_val : Option α

/-- The statement `if (x < min_val) min_val = x;` (every scalar is below `+infinity`). -/
def updateMin {α : Type} [LinearOrder α] (min_val : Option α) (x : α) : Option α :=
  match min_val with
  | none => some x
  | some m => if x < m then some x else some m

/-- The statement `if (x > max_val) max_val = x;` (every scalar is above `-infinity`). -/
def updateMax {α : Type} [LinearOrder α] (max_val : Option α) (x : α) : Option α :=
  match max_val with
  | none => some x
  | some m => if x > m then some x else some m

/-- One pass through the loop body at index `i`, with `a = eigenvalues[i]` and
`b = eigenvalues[i+1]`.  The gap `diff` is the `ScalarT` difference `sub b a`. -/
def estimatorStep {α : Type} [LinearOrder α] (sub : α → α → α) (s : EstimatorState α) (i : Nat)
    (a b : α) : EstimatorState α :=
  let diff := sub b a
  let s1 : EstimatorState α :=
    if diff > s.max_diff then { s with max_diff := diff, max_ind := i } else s
  { s1 with min_val := updateMin s1.min_val a, max_val := updateMax s1.max_val a }

/-- The loop `for (i = 0; i < rows - 1; i++)`, run from index `i` on the entries
`eigenvalues[i], eigenvalues[i+1], ...`; it stops when a single entry is left. -/
def estimatorLoop {α : Type} [LinearOrder α] (sub : α → α → α) :
    List α → Nat → EstimatorState α → EstimatorState α
  | a :: b :: rest, i, s => estimatorLoop sub (b :: rest) (i + 1) (estimatorStep sub s i a b)
  | _, _, s => s

/-- The two statements after the loop, which fold the last entry into `min_val`, `max_val`. -/
def estimatorLast {α : Type} [LinearOrder α] (s : EstimatorState α) (last : α) :
    EstimatorState α :=
  { s with min_val := updateMin s.min_val last, max_val := updateMax s.max_val last }

/-- The test `max_val - min_val < epsilon`, on the `ScalarT` difference `sub max_val min_val`.
With both seeds untouched the difference is `-infinity`, which is below every scalar. -/
def rangeBelow {α : Type} [LinearOrder α] (sub : α → α → α) (eps : α) (s : EstimatorState α) :
    Bool :=
  match s.max_val, s.min_val with
  | some mx, some mn => decide (sub mx mn < eps)
  | _, _ => true

/-- The member function `estimate_number_of_clusters_`.  Reading `eigenvalues[0]` of an empty
vector is out of range, hence `none`. -/
def estimate_number_of_clusters_ {α : Type} [LinearOrder α] (sub : α → α → α) (eps : α)
    (eigenvalues : List α) (max_num_clusters : Nat) : Option Nat :=
  match eigenvalues with
  | [] => none
  | e0 :: rest =>
    let init : EstimatorState α :=
      { max_diff := e0, max_ind := 0, min_val := none, max_val := none }
    let s := estimatorLoop sub (e0 :: rest) 0 init
    let s := estimatorLast s ((e0 :: rest).getLast (List.cons_ne_nil e0 rest))
    if rangeBelow sub eps s then some max_num_clusters else some (s.max_ind + 1)

/-! ## Library primitives and the data model -/

/-- What an Eigen (generalized) self-adjoint eigensolver hands back for an `n × n` problem:
`eigenvalues()` (a vector of length `n`) and `eigenvectors()` (one eigenvector per column). -/
structure EigenDecomposition (α : Type) (n : Nat) where
  eigenvalues : Fin n → α
  eigenvectors : Matrix (Fin n) (Fin n) α

/-- Library and platform code used by the class and not part of it:
`numeric_limits<ScalarT>::epsilon()`, the (rounding) subtraction of two `ScalarT` values as
the estimator performs it, the square root inside `norm()`, Eigen's coefficient-wise
`rsqrt()`, and the two dense eigensolvers `SelfAdjointEigenSolver(L)` and
`GeneralizedSelfAdjointEigenSolver(L, D)`. -/
structure ScalarOps (α : Type) where
  epsilon : α
  sub : α → α → α
  sqrt : α → α
  rsqrt : α → α
  SelfAdjointEigenSolver : (n : Nat) → Matrix (Fin n) (Fin n) α → EigenDecomposition α n
  GeneralizedSelfAdjointEigenSolver :
    (n : Nat) → Matrix (Fin n) (Fin n) α → Matrix (Fin n) (Fin n) α → EigenDecomposition α n

/-- The members of a constructed `SpectralClustering` object.  `num_rows` is
`embedded_points_.rows()`; `kmeans_num_clusters` is the count handed to `clusterer_->cluster`. -/
structure SpectralClustering (α : Type) (n : Nat) where
  eigenvalues_ : List α
  num_rows : Nat
  embedded_points_ : Matrix (Fin num_rows) (Fin n) α
  kmeans_num_clusters : Nat

/-- The accessor `getUsedEigenValues`. -/
def SpectralClustering.getUsedEigenValues {α : Type} {n : Nat} (sc : SpectralClustering α n) :
    List α :=
  sc.eigenvalues_

/-- The accessor `getNumberOfClusters`, which returns `embedded_points_.rows()`. -/
def SpectralClustering.getNumberOfClusters {α : Type} {n : Nat} (sc : SpectralClustering α n) :
    Nat :=
  sc.num_rows

/-! ## Laplacian construction -/

/-- The vector `affinities.rowwise().sum()`. -/
def rowwiseSum {α : Type} [LinearOrderedField α] {n : Nat} (affinities : Matrix (Fin n) (Fin n) α) :
    Fin n → α :=
  fun i => ∑ j, affinities i j

/-- The matrix `D = affinities.rowwise().sum().asDiagonal()`. -/
def D {α : Type} [LinearOrderedField α] {n : Nat} (affinities : Matrix (Fin n) (Fin n) α) :
    Matrix (Fin n) (Fin n) α :=
  Matrix.diagonal (rowwiseSum affinities)

/-- The matrix `Dtm12 = affinities.rowwise().sum().array().rsqrt().matrix().asDiagonal()`. -/
def Dtm12 {α : Type} [LinearOrderedField α] {n : Nat} (rsqrt : α → α)
    (affinities : Matrix (Fin n) (Fin n) α) : Matrix (Fin n) (Fin n) α :=
  Matrix.diagonal (fun i => rsqrt (rowwiseSum affinities i))

/-- The matrix `L = D - affinities` of the `UNNORMALIZED` and `NORMALIZED_RANDOM_WALK` cases. -/
def L_unnormalized {α : Type} [LinearOrderedField α] {n : Nat}
    (affinities : Matrix (Fin n) (Fin n) α) : Matrix (Fin n) (Fin n) α :=
  D affinities - affinities

/-- The matrix `L = Identity(rows, cols) - Dtm12*affinities*Dtm12` of the
`NORMALIZED_SYMMETRIC` case. -/
def L_normalized_symmetric {α : Type} [LinearOrderedField α] {n : Nat} (rsqrt : α → α)
    (affinities : Matrix (Fin n) (Fin n) α) : Matrix (Fin n) (Fin n) α :=
  1 - Dtm12 rsqrt affinities * affinities * Dtm12 rsqrt affinities

/-- The solver call of each `switch` case. -/
def decompose {α : Type} [LinearOrderedField α] {n : Nat} (ops : ScalarOps α)
    (laplacian_type : GraphLaplacianType) (affinities : Matrix (Fin n) (Fin n) α) :
    EigenDecomposition α n :=
  match laplacian_type with
  | GraphLaplacianType.UNNORMALIZED =>
    ops.SelfAdjointEigenSolver n (L_unnormalized affinities)
  | GraphLaplacianType.NORMALIZED_SYMMETRIC =>
    ops.SelfAdjointEigenSolver n (L_normalized_symmetric ops.rsqrt affinities)
  | GraphLaplacianType.NORMALIZED_RANDOM_WALK =>
    ops.GeneralizedSelfAdjointEigenSolver n (L_unnormalized affinities) (D affinities)

/-! ## Post-processing of the decomposition -/

/-- Eigen's `v.head(m)`: the first `m` coefficients; out of range when `m` exceeds the size. -/
def head {α : Type} {n : Nat} (v : Fin n → α) (m : Nat) : Option (List α) :=
  if m ≤ n then some ((List.ofFn v).take m) else none

/-- The loop `for (i ...) if (eigenvalues_[i] < 0.0) eigenvalues_[i] = 0.0;`. -/
def clampNegative {α : Type} [LinearOrderedField α] (eigenvalues : List α) : List α :=
  eigenvalues.map (fun x => if x < 0 then 0 else x)

/-- Eigen's `V.leftCols(k).transpose()`: row `r` is column `r` of `V`; out of range when `k`
exceeds the number of columns. -/
def leftColsTranspose {α : Type} {n : Nat} (V : Matrix (Fin n) (Fin n) α) (k : Nat) :
    Option (Matrix (Fin k) (Fin n) α) :=
  if h : k ≤ n then some (fun r p => V p (Fin.castLE h r)) else none

/-- Eigen's `col.norm()`, the square root of the sum of squares. -/
def columnNorm {α : Type} [LinearOrderedField α] {k : Nat} (sqrt : α → α) (col : Fin k → α) : α :=
  sqrt (∑ r, col r * col r)

/-- The quotient `1.0/x` together with the test `std::isfinite`: dividing by zero gives an
infinity, which is not finite (`none`); otherwise the reciprocal is a scalar. -/
def finiteReciprocal {α : Type} [LinearOrderedField α] (x : α) : Option α :=
  if x = 0 then none else some (1 / x)

/-- The loop over the columns of `embedded_points_` in the `NORMALIZED_SYMMETRIC` case:
`scale = 1.0/col(i).norm(); if (std::isfinite(scale)) col(i) *= scale;`. -/
def normalizeColumns {α : Type} [LinearOrderedField α] {k n : Nat} (sqrt : α → α)
    (E : Matrix (Fin k) (Fin n) α) : Matrix (Fin k) (Fin n) α :=
  fun r i =>
    match finiteReciprocal (columnNorm sqrt (fun r' => E r' i)) with
    | some scale => E r i * scale
    | none => E r i

/-! ## `compute_dense_` and the constructors -/

/-- The local `num_eigenvalues` of `compute_dense_`; `rows` is `affinities.rows()`. -/
def num_eigenvalues (rows max_num_clusters : Nat) (estimate_num_clusters : Bool) : Nat :=
  if estimate_num_clusters then min ((max_num_clusters + 1) % 2 ^ 64) rows else max_num_clusters

/-- The member function `compute_dense_`.  The three `switch` cases share every statement
except the solver call (`decompose`) and the column normalisation, which only the
`NORMALIZED_SYMMETRIC` case performs. -/
def compute_dense_ {α : Type} [LinearOrderedField α] {n : Nat} (ops : ScalarOps α)
    (affinities : Matrix (Fin n) (Fin n) α) (max_num_clusters : Nat)
    (estimate_num_clusters : Bool) (laplacian_type : GraphLaplacianType) :
    Option (SpectralClustering α n) :=
  let eig := decompose ops laplacian_type affinities
  match head eig.eigenvalues (num_eigenvalues n max_num_clusters estimate_num_clusters) with
  | none => none
  | some raw =>
    let eigenvalues_ := clampNegative raw
    let estimated : Option Nat :=
      if estimate_num_clusters then
        estimate_number_of_clusters_ ops.sub ops.epsilon eigenvalues_ max_num_clusters
      else some max_num_clusters
    match estimated with
    | none => none
    | some num_clusters =>
      match leftColsTranspose eig.eigenvectors num_clusters with
      | none => none
      | some E =>
        let embedded :=
          match laplacian_type with
          | GraphLaplacianType.NORMALIZED_SYMMETRIC => normalizeColumns ops.sqrt E
          | _ => E
        some { eigenvalues_ := eigenvalues_, num_rows := num_clusters,
               embedded_points_ := embedded, kmeans_num_clusters := num_clusters }

/-- The constructor for a cluster count set at run time (`EigenDim == Eigen::Dynamic`). -/
def SpectralClustering.dynamic {α : Type} [LinearOrderedField α] {n : Nat} (ops : ScalarOps α)
    (affinities : Matrix (Fin n) (Fin n) α) (max_num_clusters : Nat)
    (estimate_num_clusters : Bool) (laplacian_type : GraphLaplacianType) :
    Option (SpectralClustering α n) :=
  if 0 < max_num_clusters ∧ max_num_clusters ≤ n then
    compute_dense_ ops affinities max_num_clusters estimate_num_clusters laplacian_type
  else
    compute_dense_ ops affinities n estimate_num_clusters laplacian_type

/-! ## Specification-side notions -/

/-- The largest coefficient of a vector: a member that bounds every member from above. -/
def IsMaxCoeff {α : Type} [LinearOrder α] (e : List α) (m : α) : Prop :=
  m ∈ e ∧ ∀ x ∈ e, x ≤ m

/-- The smallest coefficient of a vector: a member that bounds every member from below. -/
def IsMinCoeff {α : Type} [LinearOrder α] (e : List α) (m : α) : Prop :=
  m ∈ e ∧ ∀ x ∈ e, m ≤ x

/-- The gaps `g_i = e_{i+1} - e_i` for `i` in `[0, m-2]`, as the specification lists them,
for a given subtraction: the exact one, or the rounding one of `ScalarT`. -/
def gaps {α : Type} (sub : α → α → α) (e : List α) : List α :=
  List.zipWith (fun a b => sub b a) e e.tail

/-- The specification's choice of index: `i` is the smallest index at which the gap is
largest.  The gap at `i` bounds every gap, and every gap before `i` is strictly smaller. -/
def IsFirstLargestGap {α : Type} [LinearOrder α] (sub : α → α → α) (e : List α) (i : Nat) :
    Prop :=
  ∃ g, (gaps sub e)[i]? = some g ∧ (∀ g' ∈ gaps sub e, g' ≤ g) ∧
    ∀ j g', j < i → (gaps sub e)[j]? = some g' → g' < g

/-- The upper bound the run-time constructor really passes on: the caller's bound when it lies
in `[1, rows]`, and `rows` otherwise. -/
def clampedUpperBound (rows max_num_clusters : Nat) : Nat :=
  if 0 < max_num_clusters ∧ max_num_clusters ≤ rows then max_num_clusters else rows

/-- The explicit random-walk Laplacian the specification names, `D^(-1) L = I - D^(-1) A`,
which the code does not form. -/
def L_random_walk {α : Type} [LinearOrderedField α] {n : Nat}
    (affinities : Matrix (Fin n) (Fin n) α) : Matrix (Fin n) (Fin n) α :=
  1 - Matrix.diagonal (fun i => (rowwiseSum affinities i)⁻¹) * affinities

/-- Rounding of a rational to the nearest integer, ties to the even one. -/
def roundHalfEven (q : ℚ) : ℤ :=
  if q - ⌊q⌋ < 1 / 2 then ⌊q⌋
  else if 1 / 2 < q - ⌊q⌋ then ⌊q⌋ + 1
  else if ⌊q⌋ % 2 = 0 then ⌊q⌋ else ⌊q⌋ + 1

/-- The exponent of the unit in the last place of `binary64` at `x`: 53 significant bits,
with the fixed exponent `-1074` of the subnormal range below `2^-1022`. -/
def binary64UlpExp (x : ℚ) : ℤ :=
  max (Int.log 2 |x|) (-1022) - 52

/-- Rounding to the nearest `binary64` number, ties to even: the default IEEE 754 rounding of
`double`.  Overflow to an infinity (results of magnitude `2^1024` and more) is not represented;
no run below comes near it. -/
def roundBinary64 (x : ℚ) : ℚ :=
  (roundHalfEven (x / 2 ^ binary64UlpExp x) : ℚ) * 2 ^ binary64UlpExp x

/-- The `double` subtraction `a - b`: the exact difference, rounded once. -/
def binary64Sub (a b : ℚ) : ℚ :=
  roundBinary64 (a - b)

/-! ## Concrete data for runs of the model -/

/-- A stand-in for the Eigen solvers in concrete runs: every decomposition reports the given
table as its ascending spectrum (entry `i` is the `i`-th eigenvalue) together with the
identity as eigenvector matrix.  Epsilon and subtraction are those of `double`; `sqrt` and
`rsqrt` are placeholders, the runs that use this record do not depend on them. -/
def tableOps (spectrum : List ℚ) : ScalarOps ℚ where
  epsilon := 1 / 2 ^ 52
  sub := binary64Sub
  sqrt := fun x => x
  rsqrt := fun x => x
  SelfAdjointEigenSolver := fun _ _ =>
    { eigenvalues := fun i => spectrum.getD i.val 0, eigenvectors := 1 }
  GeneralizedSelfAdjointEigenSolver := fun _ _ _ =>
    { eigenvalues := fun i => spectrum.getD i.val 0, eigenvectors := 1 }

/-- The affinity matrix of two points joined by an edge of weight one. -/
def pairAffinity : Matrix (Fin 2) (Fin 2) ℚ :=
  fun i j => if i = j then 0 else 1

section EstimatorLemmas

variable {α : Type} [LinearOrder α] (sub : α → α → α)

theorem estimatorStep_min_val (s : EstimatorState α) (i : Nat) (a b : α) :
    (estimatorStep sub s i a b).min_val = updateMin s.min_val a := by
  unfold estimatorStep
  by_cases h : sub b a > s.max_diff <;> simp [h]

theorem estimatorStep_max_val (s : EstimatorState α) (i : Nat) (a b : α) :
    (estimatorStep sub s i a b).max_val = updateMax s.max_val a := by
  unfold estimatorStep
  by_cases h : sub b a > s.max_diff <;> simp [h]

theorem estimatorStep_max_ind (s : EstimatorState α) (i : Nat) (a b : α) :
    (estimatorStep sub s i a b).max_ind = s.max_ind ∨ (estimatorStep sub s i a b).max_ind = i := by
  unfold estimatorStep
  by_cases h : sub b a > s.max_diff <;> simp [h]

/-- After the loop and the two closing statements, `min_val` is the fold of the update
statement over the whole vector. -/
theorem estimator_min_val_eq_foldl (l : List α) (a : α) (i : Nat) (s : EstimatorState α) :
    (estimatorLast (estimatorLoop sub (a :: l) i s)
        ((a :: l).getLast (List.cons_ne_nil a l))).min_val
      = (a :: l).foldl updateMin s.min_val := by
  induction l generalizing a i s with
  | nil => simp [estimatorLoop, estimatorLast]
  | cons b rest ih =>
    have h := ih b (i + 1) (estimatorStep sub s i a b)
    rw [estimatorStep_min_val] at h
    simpa [estimatorLoop, List.getLast_cons] using h

/-- After the loop and the two closing statements, `max_val` is the fold of the update
statement over the whole vector. -/
theorem estimator_max_val_eq_foldl (l : List α) (a : α) (i : Nat) (s : EstimatorState α) :
    (estimatorLast (estimatorLoop sub (a :: l) i s)
        ((a :: l).getLast (List.cons_ne_nil a l))).max_val
      = (a :: l).foldl updateMax s.max_val := by
  induction l generalizing a i s with
  | nil => simp [estimatorLoop, estimatorLast]
  | cons b rest ih =>
    have h := ih b (i + 1) (estimatorStep sub s i a b)
    rw [estimatorStep_max_val] at h
    simpa [estimatorLoop, List.getLast_cons] using h

theorem estimatorLast_max_ind (s : EstimatorState α) (x : α) :
    (estimatorLast s x).max_ind = s.max_ind := rfl

theorem foldl_updateMin_some (l : List α) (m0 : α) :
    ∃ m, l.foldl updateMin (some m0) = some m ∧ m ≤ m0 ∧ (∀ x ∈ l, m ≤ x) ∧
      (m = m0 ∨ m ∈ l) := by
  induction l generalizing m0 with
  | nil => exact ⟨m0, rfl, le_refl _, by simp, Or.inl rfl⟩
  | cons a rest ih =>
    by_cases h : a < m0
    · obtain ⟨m, h1, h2, h3, h4⟩ := ih a
      refine ⟨m, by simpa [updateMin, h] using h1, le_trans h2 (le_of_lt h), ?_, ?_⟩
      · intro x hx
        rcases List.mem_cons.mp hx with rfl | hx
        · exact h2
        · exact h3 x hx
      · rcases h4 with rfl | h4
        · exact Or.inr (List.mem_cons_self _ _)
        · exact Or.inr (List.mem_cons_of_mem _ h4)
    · obtain ⟨m, h1, h2, h3, h4⟩ := ih m0
      refine ⟨m, by simpa [updateMin, h] using h1, h2, ?_, ?_⟩
      · intro x hx
        rcases List.mem_cons.mp hx with rfl | hx
        · exact le_trans h2 (not_lt.mp h)
        · exact h3 x hx
      · rcases h4 with rfl | h4
        · exact Or.inl rfl
        · exact Or.inr (List.mem_cons_of_mem _ h4)

theorem foldl_updateMax_some (l : List α) (m0 : α) :
    ∃ m, l.foldl updateMax (some m0) = some m ∧ m0 ≤ m ∧ (∀ x ∈ l, x ≤ m) ∧
      (m = m0 ∨ m ∈ l) := by
  induction l generalizing m0 with
  | nil => exact ⟨m0, rfl, le_refl _, by simp, Or.inl rfl⟩
  | cons a rest ih =>
    by_cases h : a > m0
    · obtain ⟨m, h1, h2, h3, h4⟩ := ih a
      refine ⟨m, by simpa [updateMax, h] using h1, le_trans (le_of_lt h) h2, ?_, ?_⟩
      · intro x hx
        rcases List.mem_cons.mp hx with rfl | hx
        · exact h2
        · exact h3 x hx
      · rcases h4 with rfl | h4
        · exact Or.inr (List.mem_cons_self _ _)
        · exact Or.inr (List.mem_cons_of_mem _ h4)
    · obtain ⟨m, h1, h2, h3, h4⟩ := ih m0
      refine ⟨m, by simpa [updateMax, h] using h1, h2, ?_, ?_⟩
      · intro x hx
        rcases List.mem_cons.mp hx with rfl | hx
        · exact le_trans (not_lt.mp h) h2
        · exact h3 x hx
      · rcases h4 with rfl | h4
        · exact Or.inl rfl
        · exact Or.inr (List.mem_cons_of_mem _ h4)

/-- On a non-empty vector the final `min_val` is the smallest coefficient. -/
theorem foldl_updateMin_none (a : α) (l : List α) :
    ∃ m, (a :: l).foldl updateMin none = some m ∧ IsMinCoeff (a :: l) m := by
  obtain ⟨m, h1, h2, h3, h4⟩ := foldl_updateMin_some l a
  refine ⟨m, by simpa [updateMin] using h1, ?_, ?_⟩
  · rcases h4 with rfl | h4
    · exact List.mem_cons_self _ _
    · exact List.mem_cons_of_mem _ h4
  · intro x hx
    rcases List.mem_cons.mp hx with rfl | hx
    · exact h2
    · exact h3 x hx

/-- On a non-empty vector the final `max_val` is the largest coefficient. -/
theorem foldl_updateMax_none (a : α) (l : List α) :
    ∃ m, (a :: l).foldl updateMax none = some m ∧ IsMaxCoeff (a :: l) m := by
  obtain ⟨m, h1, h2, h3, h4⟩ := foldl_updateMax_some l a
  refine ⟨m, by simpa [updateMax] using h1, ?_, ?_⟩
  · rcases h4 with rfl | h4
    · exact List.mem_cons_self _ _
    · exact List.mem_cons_of_mem _ h4
  · intro x hx
    rcases List.mem_cons.mp hx with rfl | hx
    · exact h2
    · exact h3 x hx

theorem isMaxCoeff_unique {e : List α} {m m' : α} (h : IsMaxCoeff e m) (h' : IsMaxCoeff e m') :
    m = m' :=
  le_antisymm (h'.2 m h.1) (h.2 m' h'.1)

theorem isMinCoeff_unique {e : List α} {m m' : α} (h : IsMinCoeff e m) (h' : IsMinCoeff e m') :
    m = m' :=
  le_antisymm (h.2 m' h'.1) (h'.2 m h.1)

/-- The value returned by the estimator on a non-empty vector, in terms of the range of the
vector and of the index left in `max_ind` by the loop. -/
theorem estimate_eq (eps : α) (e0 : α) (rest : List α) (k : Nat) (mx mn : α)
    (hmx : IsMaxCoeff (e0 :: rest) mx) (hmn : IsMinCoeff (e0 :: rest) mn) :
    estimate_number_of_clusters_ sub eps (e0 :: rest) k =
      if sub mx mn < eps then some k
      else some ((estimatorLoop sub (e0 :: rest) 0
        { max_diff := e0, max_ind := 0, min_val := none, max_val := none }).max_ind + 1) := by
  obtain ⟨m1, hm1, hm1'⟩ := foldl_updateMin_none e0 rest
  obtain ⟨m2, hm2, hm2'⟩ := foldl_updateMax_none e0 rest
  have e1 : m1 = mn := isMinCoeff_unique hm1' hmn
  have e2 : m2 = mx := isMaxCoeff_unique hm2' hmx
  subst e1 e2
  have hmin := estimator_min_val_eq_foldl sub rest e0 0
    { max_diff := e0, max_ind := 0, min_val := none, max_val := none }
  have hmax := estimator_max_val_eq_foldl sub rest e0 0
    { max_diff := e0, max_ind := 0, min_val := none, max_val := none }
  simp only [] at hmin hmax
  rw [hm1] at hmin
  rw [hm2] at hmax
  simp only [estimate_number_of_clusters_, rangeBelow, hmin, hmax, estimatorLast_max_ind]
  by_cases h : sub m2 m1 < eps <;> simp [h]

/-- The index left in `max_ind` by the loop is the one it started with, or an index the loop
has visited. -/
theorem estimatorLoop_max_ind (l : List α) (i : Nat) (s : EstimatorState α) :
    (estimatorLoop sub l i s).max_ind = s.max_ind ∨
      (i ≤ (estimatorLoop sub l i s).max_ind ∧ (estimatorLoop sub l i s).max_ind + 2 ≤ i + l.length) := by
  induction l generalizing i s with
  | nil => exact Or.inl rfl
  | cons a rest ih =>
    cases rest with
    | nil => exact Or.inl rfl
    | cons b rest' =>
      simp only [estimatorLoop]
      rcases ih (i + 1) (estimatorStep sub s i a b) with h | ⟨h1, h2⟩
      · rcases estimatorStep_max_ind sub s i a b with h' | h'
        · exact Or.inl (h.trans h')
        · right
          rw [h, h']
          simp only [List.length_cons]
          omega
      · right
        simp only [List.length_cons] at h2 ⊢
        omega

theorem gaps_cons_cons {β : Type} (sub : β → β → β) (a b : β) (rest : List β) :
    gaps sub (a :: b :: rest) = (sub b a) :: gaps sub (b :: rest) := by
  simp [gaps]

theorem estimatorStep_max_diff (s : EstimatorState α) (i : Nat) (a b : α) :
    (estimatorStep sub s i a b).max_diff = if sub b a > s.max_diff then sub b a else s.max_diff := by
  unfold estimatorStep
  by_cases h : sub b a > s.max_diff <;> simp [h]

theorem estimatorStep_max_ind_eq (s : EstimatorState α) (i : Nat) (a b : α) :
    (estimatorStep sub s i a b).max_ind = if sub b a > s.max_diff then i else s.max_ind := by
  unfold estimatorStep
  by_cases h : sub b a > s.max_diff <;> simp [h]

/-- When no remaining gap exceeds the running maximum, the loop leaves `max_ind` and
`max_diff` as they are. -/
theorem estimatorLoop_no_update (l : List α) (i : Nat) (s : EstimatorState α)
    (h : ∀ g ∈ gaps sub l, g ≤ s.max_diff) :
    (estimatorLoop sub l i s).max_ind = s.max_ind ∧ (estimatorLoop sub l i s).max_diff = s.max_diff := by
  induction l generalizing i s with
  | nil => exact ⟨rfl, rfl⟩
  | cons a rest ih =>
    cases rest with
    | nil => exact ⟨rfl, rfl⟩
    | cons b rest' =>
      rw [gaps_cons_cons] at h
      have h0 : ¬ (sub b a > s.max_diff) := not_lt.mpr (h (sub b a) (List.mem_cons_self _ _))
      have hd : (estimatorStep sub s i a b).max_diff = s.max_diff := by
        rw [estimatorStep_max_diff, if_neg h0]
      have hi : (estimatorStep sub s i a b).max_ind = s.max_ind := by
        rw [estimatorStep_max_ind_eq, if_neg h0]
      have := ih (i + 1) (estimatorStep sub s i a b)
        (fun g hg => by rw [hd]; exact h g (List.mem_cons_of_mem _ hg))
      simp only [estimatorLoop]
      rw [this.1, this.2, hd, hi]
      exact ⟨rfl, rfl⟩

/-- When the first largest remaining gap sits `j` places ahead and exceeds the running
maximum, the loop started at index `i` leaves `max_ind = i + j`. -/
theorem estimatorLoop_first_largest (l : List α) (i : Nat) (s : EstimatorState α) (j : Nat)
    (g : α) (hj : (gaps sub l)[j]? = some g) (hmax : ∀ g' ∈ gaps sub l, g' ≤ g)
    (hfirst : ∀ j' g', j' < j → (gaps sub l)[j']? = some g' → g' < g) (hs : s.max_diff < g) :
    (estimatorLoop sub l i s).max_ind = i + j := by
  induction l generalizing i s j with
  | nil => simp [gaps] at hj
  | cons a rest ih =>
    cases rest with
    | nil => simp [gaps] at hj
    | cons b rest' =>
      rw [gaps_cons_cons] at hj hmax hfirst
      simp only [estimatorLoop]
      cases j with
      | zero =>
        simp only [List.getElem?_cons_zero, Option.some.injEq] at hj
        have h0 : sub b a > s.max_diff := by rw [hj]; exact hs
        have hd : (estimatorStep sub s i a b).max_diff = g := by
          rw [estimatorStep_max_diff, if_pos h0, hj]
        have hi : (estimatorStep sub s i a b).max_ind = i := by
          rw [estimatorStep_max_ind_eq, if_pos h0]
        have := estimatorLoop_no_update sub (b :: rest') (i + 1) (estimatorStep sub s i a b)
          (fun g' hg' => by rw [hd]; exact hmax g' (List.mem_cons_of_mem _ hg'))
        rw [this.1, hi, Nat.add_zero]
      | succ j' =>
        simp only [List.getElem?_cons_succ] at hj
        have hlt : sub b a < g := hfirst 0 (sub b a) (Nat.succ_pos j') (by simp)
        have hd : (estimatorStep sub s i a b).max_diff < g := by
          rw [estimatorStep_max_diff]
          split_ifs
          · exact hlt
          · exact hs
        have := ih (i + 1) (estimatorStep sub s i a b) j' hj
          (fun g' hg' => hmax g' (List.mem_cons_of_mem _ hg'))
          (fun j'' g' hlt' hg' => hfirst (j'' + 1) g' (by omega) (by simpa using hg')) hd
        rw [this]
        omega

end EstimatorLemmas

/-! ## Facts about `binary64` rounding -/

section Binary64

theorem roundHalfEven_intCast (m : ℤ) : roundHalfEven (m : ℚ) = m := by
  simp [roundHalfEven]

/-- The unit in the last place of a number in the binade `[2^e, 2^(e+1))` of the normal
range is `2^(e-52)`. -/
theorem binary64UlpExp_eq (x : ℚ) (e : ℤ) (hlo : (2 : ℚ) ^ e ≤ |x|)
    (hhi : |x| < (2 : ℚ) ^ (e + 1)) (he : -1022 ≤ e) : binary64UlpExp x = e - 52 := by
  have hpos : 0 < |x| := lt_of_lt_of_le (zpow_pos (by norm_num) e) hlo
  have h1 : e ≤ Int.log 2 |x| := by
    rw [← Int.zpow_le_iff_le_log (by norm_num) hpos]
    exact_mod_cast hlo
  have h2 : Int.log 2 |x| < e + 1 := by
    rw [← Int.lt_zpow_iff_log_lt (by norm_num) hpos]
    exact_mod_cast hhi
  unfold binary64UlpExp
  have h3 : Int.log 2 |x| = e := by omega
  rw [h3, max_eq_left he]

/-- Every `binary64` number `m * 2^k` (`|m| < 2^53`, `k ≥ -1074`) rounds to itself. -/
theorem roundBinary64_exact (m k : ℤ) (hm : |m| < 2 ^ 53) (hk : -1074 ≤ k) :
    roundBinary64 ((m : ℚ) * 2 ^ k) = (m : ℚ) * 2 ^ k := by
  by_cases hm0 : m = 0
  · subst hm0
    simp [roundBinary64, roundHalfEven]
  · have hpos : 0 < |(m : ℚ) * 2 ^ k| := by
      rw [abs_pos]
      exact mul_ne_zero (by exact_mod_cast hm0) (zpow_ne_zero _ (by norm_num))
    have hmq : |(m : ℚ)| < (2 : ℚ) ^ (53 : ℤ) := by
      have h : |(m : ℚ)| < (2 : ℚ) ^ (53 : ℕ) := by exact_mod_cast hm
      rw [← zpow_natCast] at h
      exact h
    have hlt : |(m : ℚ) * 2 ^ k| < (2 : ℚ) ^ (53 + k) := by
      rw [abs_mul, abs_of_pos (zpow_pos (by norm_num : (0 : ℚ) < 2) k), zpow_add₀ (by norm_num)]
      exact mul_lt_mul_of_pos_right hmq (zpow_pos (by norm_num) k)
    have hlog : Int.log 2 |(m : ℚ) * 2 ^ k| < 53 + k := by
      rw [← Int.lt_zpow_iff_log_lt (by norm_num) hpos]
      exact_mod_cast hlt
    have hu : binary64UlpExp ((m : ℚ) * 2 ^ k) ≤ k := by
      unfold binary64UlpExp
      have := max_le (a := Int.log 2 |(m : ℚ) * 2 ^ k|) (b := -1022) (c := k + 52)
        (by omega) (by omega)
      omega
    unfold roundBinary64
    generalize binary64UlpExp ((m : ℚ) * 2 ^ k) = u at hu
    obtain ⟨d, hd⟩ := Int.eq_ofNat_of_zero_le (sub_nonneg.mpr hu)
    have hk' : k = u + d := by omega
    have h2u : (2 : ℚ) ^ u ≠ 0 := zpow_ne_zero _ (by norm_num)
    have hdiv : (m : ℚ) * 2 ^ k / 2 ^ u = ((m * 2 ^ d : ℤ) : ℚ) := by
      rw [hk', zpow_add₀ (by norm_num), zpow_natCast]
      push_cast
      field_simp
      ring
    rw [hdiv, roundHalfEven_intCast, ← hdiv]
    exact div_mul_cancel₀ _ h2u

/-- The `double` subtraction is exact whenever the exact difference is a `binary64` number. -/
theorem binary64Sub_exact (a b : ℚ) (m k : ℤ) (h : a - b = (m : ℚ) * 2 ^ k)
    (hm : |m| < 2 ^ 53) (hk : -1074 ≤ k) : binary64Sub a b = a - b := by
  unfold binary64Sub
  rw [h]
  exact roundBinary64_exact m k hm hk

/-- The `double` subtraction of two integers whose difference has fewer than 54 bits. -/
theorem binary64Sub_int (a b : ℤ) (h : |a - b| < 2 ^ 53) :
    binary64Sub (a : ℚ) (b : ℚ) = ((a - b : ℤ) : ℚ) := by
  rw [binary64Sub_exact (a : ℚ) (b : ℚ) (a - b) 0 (by push_cast; simp) h (by norm_num)]
  push_cast
  rfl

/-- The value of a rounding in the normal range, once the binade `e` of `x` and the integer
part `f` of `x` in units in the last place are known. -/
theorem roundBinary64_eval (x : ℚ) (e f : ℤ) (hlo : (2 : ℚ) ^ e ≤ |x|)
    (hhi : |x| < (2 : ℚ) ^ (e + 1)) (he : -1022 ≤ e) (hf : ⌊x / 2 ^ (e - 52)⌋ = f) :
    roundBinary64 x =
      ((if x / 2 ^ (e - 52) - f < 1 / 2 then f
        else if 1 / 2 < x / 2 ^ (e - 52) - f then f + 1
        else if f % 2 = 0 then f else f + 1 : ℤ) : ℚ) * 2 ^ (e - 52) := by
  unfold roundBinary64 roundHalfEven
  rw [binary64UlpExp_eq x e hlo hhi he, hf]

theorem binary64Sub_self (a : ℚ) : binary64Sub a a = 0 := by
  simp [binary64Sub, roundBinary64, roundHalfEven]

theorem roundHalfEven_nonneg (q : ℚ) (hq : 0 ≤ q) : 0 ≤ roundHalfEven q := by
  have hf : 0 ≤ ⌊q⌋ := Int.floor_nonneg.mpr hq
  unfold roundHalfEven
  split_ifs <;> omega

/-- The `double` difference of an ordered pair is never negative. -/
theorem binary64Sub_nonneg (a b : ℚ) (hab : a ≤ b) : 0 ≤ binary64Sub b a := by
  unfold binary64Sub roundBinary64
  have hpow : (0 : ℚ) < 2 ^ binary64UlpExp (b - a) := zpow_pos (by norm_num) _
  have hq : 0 ≤ (b - a) / 2 ^ binary64UlpExp (b - a) :=
    div_nonneg (sub_nonneg.mpr hab) (le_of_lt hpow)
  exact mul_nonneg (by exact_mod_cast roundHalfEven_nonneg _ hq) (le_of_lt hpow)

end Binary64

/-! ## The eigengap estimator -/

section Estimator

variable {α : Type} [LinearOrder α]

/-- The estimator on `[5, 6, 7.5]` in `double` arithmetic: every difference is exact, no gap
exceeds the seed `5`, and the result is `1`. -/
theorem estimate_seed_run (k : Nat) :
    estimate_number_of_clusters_ binary64Sub ((1 : ℚ) / 2 ^ 52) [5, 6, 15 / 2] k = some 1 := by
  have h1 : binary64Sub 6 5 = 1 := by
    have h := binary64Sub_int 6 5 (by norm_num)
    norm_num at h
    exact h
  have h2 : binary64Sub (15 / 2) 6 = 3 / 2 := by
    rw [binary64Sub_exact (15 / 2) 6 3 (-1) (by norm_num) (by norm_num) (by norm_num)]
    norm_num
  have h3 : binary64Sub (15 / 2) 5 = 5 / 2 := by
    rw [binary64Sub_exact (15 / 2) 5 5 (-1) (by norm_num) (by norm_num) (by norm_num)]
    norm_num
  have hmem : ∀ x ∈ ([5, 6, 15 / 2] : List ℚ), x = 5 ∨ x = 6 ∨ x = 15 / 2 := by
    intro x hx
    simpa using hx
  rw [estimate_eq binary64Sub ((1 : ℚ) / 2 ^ 52) 5 [6, 15 / 2] k (15 / 2) 5
    ⟨by simp, fun x hx => by rcases hmem x hx with rfl | rfl | rfl <;> norm_num⟩
    ⟨by simp, fun x hx => by rcases hmem x hx with rfl | rfl | rfl <;> norm_num⟩, h3]
  norm_num [estimatorLoop, estimatorStep, updateMin, updateMax, h1, h2]

/-- C1 as stated fails: on the ascending, non-negative, non-flat vector `[5, 6, 7.5]` the
largest gap `1.5` sits at index `1`, so the claim asks for `2`, while the code (in `double`
arithmetic, exact on this input) returns `1`: no gap exceeds the seed
`max_diff = eigenvalues[0] = 5`. -/
theorem estimate_not_always_first_largest_gap :
    ¬ (∀ (e : List ℚ) (k i : Nat) (mx mn : ℚ),
        2 ≤ e.length → e.Sorted (· ≤ ·) → (∀ x ∈ e, 0 ≤ x) →
        IsMaxCoeff e mx → IsMinCoeff e mn → ¬ (mx - mn < 1 / 2 ^ 52) →
        IsFirstLargestGap (fun a b => a - b) e i →
        estimate_number_of_clusters_ binary64Sub ((1 : ℚ) / 2 ^ 52) e k = some (i + 1)) := by
  intro h
  have hmem : ∀ x ∈ ([5, 6, 15 / 2] : List ℚ), x = 5 ∨ x = 6 ∨ x = 15 / 2 := by
    intro x hx
    simpa using hx
  have hgaps : gaps (fun a b : ℚ => a - b) [5, 6, 15 / 2] = [1, 3 / 2] := by
    norm_num [gaps]
  have hfirst : IsFirstLargestGap (fun a b : ℚ => a - b) [5, 6, 15 / 2] 1 := by
    refine ⟨3 / 2, by rw [hgaps]; rfl, ?_, ?_⟩
    · intro g' hg'
      rw [hgaps] at hg'
      simp only [List.mem_cons, List.mem_singleton, List.not_mem_nil, or_false] at hg'
      rcases hg' with rfl | rfl <;> norm_num
    · intro j g' hj hg'
      have hj0 : j = 0 := by omega
      subst hj0
      rw [hgaps] at hg'
      simp only [List.getElem?_cons_zero, Option.some.injEq] at hg'
      rw [← hg']
      norm_num
  have hclaim := h [5, 6, 15 / 2] 2 1 (15 / 2) 5 (by simp)
    (by norm_num [List.Sorted])
    (fun x hx => by rcases hmem x hx with rfl | rfl | rfl <;> norm_num)
    ⟨by simp, fun x hx => by rcases hmem x hx with rfl | rfl | rfl <;> norm_num⟩
    ⟨by simp, fun x hx => by rcases hmem x hx with rfl | rfl | rfl <;> norm_num⟩
    (by norm_num) hfirst
  rw [estimate_seed_run] at hclaim
  exact absurd hclaim (by decide)

/-- C1, amended: for every `ScalarT` subtraction `sub` and every vector (ascending and
non-negative or not) whose computed range `sub max min` is not below machine epsilon, if `i`
is the smallest index at which the computed gap `sub e[i+1] e[i]` is largest, and that
largest gap strictly exceeds `eigenvalues[0]` or sits at index `0`, the estimator returns
`i + 1`. -/
theorem estimate_first_largest_gap (sub : α → α → α) (eps : α) (e : List α) (k i : Nat)
    (e0 mx mn : α)
    (hmx : IsMaxCoeff e mx) (hmn : IsMinCoeff e mn) (hrange : ¬ (sub mx mn < eps))
    (hi : IsFirstLargestGap sub e i) (he0 : e.head? = some e0)
    (hseed : i = 0 ∨ ∃ g ∈ gaps sub e, e0 < g) :
    estimate_number_of_clusters_ sub eps e k = some (i + 1) := by
  cases e with
  | nil => simp at he0
  | cons a rest =>
    simp only [List.head?_cons, Option.some.injEq] at he0
    subst he0
    rw [estimate_eq sub eps a rest k mx mn hmx hmn, if_neg hrange]
    obtain ⟨g, hg, hmax, hfirst⟩ := hi
    by_cases hex : ∃ g' ∈ gaps sub (a :: rest), a < g'
    · obtain ⟨g', hg', hlt⟩ := hex
      have h := estimatorLoop_first_largest sub (a :: rest) 0
        { max_diff := a, max_ind := 0, min_val := none, max_val := none } i g hg hmax hfirst
        (lt_of_lt_of_le hlt (hmax g' hg'))
      rw [h, Nat.zero_add]
    · have hi0 : i = 0 := by
        rcases hseed with h | h
        · exact h
        · exact absurd h hex
      have hle : ∀ g' ∈ gaps sub (a :: rest), g' ≤ a := by
        intro g' hg'
        by_contra hlt
        exact hex ⟨g', hg', not_le.mp hlt⟩
      have h := (estimatorLoop_no_update sub (a :: rest) 0
        { max_diff := a, max_ind := 0, min_val := none, max_val := none } hle).1
      rw [h, hi0]

/-- The gaps of `[0, 1, 3, 4]` as `double` arithmetic computes them. -/
theorem gaps_binary64_sample : gaps binary64Sub ([0, 1, 3, 4] : List ℚ) = [1, 2, 1] := by
  have h1 : binary64Sub 1 0 = 1 := by
    have h := binary64Sub_int 1 0 (by norm_num)
    norm_num at h
    exact h
  have h2 : binary64Sub 3 1 = 2 := by
    have h := binary64Sub_int 3 1 (by norm_num)
    norm_num at h
    exact h
  have h3 : binary64Sub 4 3 = 1 := by
    have h := binary64Sub_int 4 3 (by norm_num)
    norm_num at h
    exact h
  simp [gaps, h1, h2, h3]

/-- Witness for C1 (amended): `[0, 1, 3, 4]` in `double` arithmetic, whose largest gap `2`
sits at index `1`. -/
theorem estimate_first_largest_gap_witness :
    IsMaxCoeff ([0, 1, 3, 4] : List ℚ) 4 ∧ IsMinCoeff ([0, 1, 3, 4] : List ℚ) 0 ∧
      ¬ (binary64Sub 4 0 < (1 : ℚ) / 2 ^ 52) ∧
      IsFirstLargestGap binary64Sub ([0, 1, 3, 4] : List ℚ) 1 ∧
      ([0, 1, 3, 4] : List ℚ).head? = some 0 ∧
      (1 = 0 ∨ ∃ g ∈ gaps binary64Sub ([0, 1, 3, 4] : List ℚ), (0 : ℚ) < g) ∧
      estimate_number_of_clusters_ binary64Sub ((1 : ℚ) / 2 ^ 52) [0, 1, 3, 4] 5
        = some (1 + 1) := by
  have hmem : ∀ x ∈ ([0, 1, 3, 4] : List ℚ), x = 0 ∨ x = 1 ∨ x = 3 ∨ x = 4 := by
    intro x hx
    simpa using hx
  have hgaps := gaps_binary64_sample
  have hmx : IsMaxCoeff ([0, 1, 3, 4] : List ℚ) 4 :=
    ⟨by simp, fun x hx => by rcases hmem x hx with rfl | rfl | rfl | rfl <;> norm_num⟩
  have hmn : IsMinCoeff ([0, 1, 3, 4] : List ℚ) 0 :=
    ⟨by simp, fun x hx => by rcases hmem x hx with rfl | rfl | rfl | rfl <;> norm_num⟩
  have h40 : binary64Sub 4 0 = 4 := by
    have h := binary64Sub_int 4 0 (by norm_num)
    norm_num at h
    exact h
  have hrange : ¬ (binary64Sub 4 0 < (1 : ℚ) / 2 ^ 52) := by
    rw [h40]
    norm_num
  have hfirst : IsFirstLargestGap binary64Sub ([0, 1, 3, 4] : List ℚ) 1 := by
    refine ⟨2, by rw [hgaps]; rfl, ?_, ?_⟩
    · intro g' hg'
      rw [hgaps] at hg'
      simp only [List.mem_cons, List.mem_singleton, List.not_mem_nil, or_false] at hg'
      rcases hg' with rfl | rfl | rfl <;> norm_num
    · intro j g' hj hg'
      have hj0 : j = 0 := by omega
      subst hj0
      rw [hgaps] at hg'
      simp only [List.getElem?_cons_zero, Option.some.injEq] at hg'
      rw [← hg']
      norm_num
  have hseed : (1 = 0 ∨ ∃ g ∈ gaps binary64Sub ([0, 1, 3, 4] : List ℚ), (0 : ℚ) < g) :=
    Or.inr ⟨1, by rw [hgaps]; simp, by norm_num⟩
  exact ⟨hmx, hmn, hrange, hfirst, rfl, hseed,
    estimate_first_largest_gap binary64Sub ((1 : ℚ) / 2 ^ 52) [0, 1, 3, 4] 5 1 0 4 0 hmx hmn
      hrange hfirst rfl hseed⟩

/-- In `double` arithmetic `2^-52 - 2^-133` rounds to `2^-52`. -/
theorem binary64Sub_epsilon_minus_tiny :
    binary64Sub ((1 : ℚ) / 2 ^ 52) (1 / 2 ^ 133) = 1 / 2 ^ 52 := by
  unfold binary64Sub
  rw [roundBinary64_eval _ (-53) (2 ^ 53 - 1) (by norm_num [abs_of_pos])
    (by norm_num [abs_of_pos]) (by norm_num) (by rw [Int.floor_eq_iff]; norm_num)]
  norm_num

/-- C2 as stated fails: on `[2^-133, 2^-52]` the exact range `2^-52 - 2^-133` is strictly
below the machine epsilon `2^-52` of `double`, but the difference the code computes rounds
to `2^-52`, which is not below epsilon; the code returns `max_ind + 1 = 1`, not the upper
bound `2`. -/
theorem estimate_exact_range_below_epsilon_not_flat :
    ¬ (∀ (e : List ℚ) (k : Nat) (mx mn : ℚ), e ≠ [] →
        IsMaxCoeff e mx → IsMinCoeff e mn → mx - mn < 1 / 2 ^ 52 →
        estimate_number_of_clusters_ binary64Sub ((1 : ℚ) / 2 ^ 52) e k = some k) := by
  intro h
  have hmem : ∀ x ∈ ([1 / 2 ^ 133, 1 / 2 ^ 52] : List ℚ), x = 1 / 2 ^ 133 ∨ x = 1 / 2 ^ 52 := by
    intro x hx
    simpa using hx
  have hmx : IsMaxCoeff ([1 / 2 ^ 133, 1 / 2 ^ 52] : List ℚ) (1 / 2 ^ 52) :=
    ⟨by simp, fun x hx => by rcases hmem x hx with rfl | rfl <;> norm_num⟩
  have hmn : IsMinCoeff ([1 / 2 ^ 133, 1 / 2 ^ 52] : List ℚ) (1 / 2 ^ 133) :=
    ⟨by simp, fun x hx => by rcases hmem x hx with rfl | rfl <;> norm_num⟩
  have hclaim := h [1 / 2 ^ 133, 1 / 2 ^ 52] 2 (1 / 2 ^ 52) (1 / 2 ^ 133) (by simp) hmx hmn
    (by norm_num)
  rw [estimate_eq binary64Sub ((1 : ℚ) / 2 ^ 52) (1 / 2 ^ 133) [1 / 2 ^ 52] 2 (1 / 2 ^ 52)
    (1 / 2 ^ 133) hmx hmn, binary64Sub_epsilon_minus_tiny, if_neg (lt_irrefl _)] at hclaim
  have hloop : (estimatorLoop binary64Sub ([1 / 2 ^ 133, 1 / 2 ^ 52] : List ℚ) 0
      { max_diff := 1 / 2 ^ 133, max_ind := 0, min_val := none, max_val := none }).max_ind
      = 0 := by
    rcases estimatorLoop_max_ind binary64Sub ([1 / 2 ^ 133, 1 / 2 ^ 52] : List ℚ) 0
      { max_diff := 1 / 2 ^ 133, max_ind := 0, min_val := none, max_val := none } with h0 | h0
    · exact h0
    · simp only [List.length_cons, List.length_nil] at h0
      omega
  rw [hloop] at hclaim
  exact absurd hclaim (by decide)

/-- C2, amended: for every `ScalarT` subtraction `sub`, on a non-empty vector whose computed
range `sub max min` is strictly below machine epsilon the estimator returns the upper bound
`k` it was given, whatever the gaps are; this covers every vector of equal values `c`, as
soon as the computed `sub c c` (zero in IEEE arithmetic) is below epsilon. -/
theorem estimate_flat_returns_upper_bound (sub : α → α → α) (eps : α) (e : List α) (k : Nat)
    (hne : e ≠ []) :
    (∀ mx mn, IsMaxCoeff e mx → IsMinCoeff e mn → sub mx mn < eps →
        estimate_number_of_clusters_ sub eps e k = some k) ∧
      (∀ c, (∀ x ∈ e, x = c) → sub c c < eps →
        estimate_number_of_clusters_ sub eps e k = some k) := by
  cases e with
  | nil => exact absurd rfl hne
  | cons e0 rest =>
    have main : ∀ mx mn, IsMaxCoeff (e0 :: rest) mx → IsMinCoeff (e0 :: rest) mn →
        sub mx mn < eps → estimate_number_of_clusters_ sub eps (e0 :: rest) k = some k := by
      intro mx mn hmx hmn h
      rw [estimate_eq sub eps e0 rest k mx mn hmx hmn, if_pos h]
    refine ⟨main, ?_⟩
    intro c heq hc
    have hmem : e0 ∈ e0 :: rest := List.mem_cons_self _ _
    have hc0 : e0 = c := heq e0 hmem
    subst hc0
    exact main e0 e0 ⟨hmem, fun x hx => le_of_eq (heq x hx)⟩
      ⟨hmem, fun x hx => le_of_eq (heq x hx).symm⟩ hc

/-- Witness for C2 (amended): the flat spectrum `[2, 2, 2]` with upper bound `7`, in `double`
arithmetic. -/
theorem estimate_flat_returns_upper_bound_witness :
    ([2, 2, 2] : List ℚ) ≠ [] ∧
      ((∀ mx mn, IsMaxCoeff ([2, 2, 2] : List ℚ) mx → IsMinCoeff ([2, 2, 2] : List ℚ) mn →
          binary64Sub mx mn < (1 : ℚ) / 2 ^ 52 →
          estimate_number_of_clusters_ binary64Sub ((1 : ℚ) / 2 ^ 52) [2, 2, 2] 7 = some 7) ∧
        (∀ c, (∀ x ∈ ([2, 2, 2] : List ℚ), x = c) → binary64Sub c c < (1 : ℚ) / 2 ^ 52 →
          estimate_number_of_clusters_ binary64Sub ((1 : ℚ) / 2 ^ 52) [2, 2, 2] 7 = some 7)) ∧
      (∀ x ∈ ([2, 2, 2] : List ℚ), x = 2) ∧ binary64Sub 2 2 < (1 : ℚ) / 2 ^ 52 ∧
      estimate_number_of_clusters_ binary64Sub ((1 : ℚ) / 2 ^ 52) [2, 2, 2] 7 = some 7 := by
  have hall : ∀ x ∈ ([2, 2, 2] : List ℚ), x = 2 := by
    intro x hx
    simpa using hx
  have hsub : binary64Sub 2 2 < (1 : ℚ) / 2 ^ 52 := by
    rw [binary64Sub_self]
    norm_num
  have hthm := estimate_flat_returns_upper_bound binary64Sub ((1 : ℚ) / 2 ^ 52) [2, 2, 2] 7
    (by simp)
  exact ⟨by simp, hthm, hall, hsub, hthm.2 2 hall hsub⟩

/-- C7: on the eigenvalues `[0, 0, 0, 5, 6, 7]` with upper bound `5` the estimator returns `3`,
for every machine epsilon that does not exceed the range `7`: with exact subtraction, and
with every `ScalarT` subtraction that is exact on the five differences met (`0 - 0`, `5 - 0`,
`6 - 5`, `7 - 6`, `7 - 0`), as every IEEE format is. -/
theorem estimate_example_three_clusters {β : Type} [LinearOrderedField β] (eps : β)
    (heps : eps ≤ 7) :
    estimate_number_of_clusters_ (fun a b => a - b) eps [0, 0, 0, 5, 6, 7] 5 = some 3 ∧
      ∀ sub : β → β → β, sub 0 0 = 0 → sub 5 0 = 5 → sub 6 5 = 1 → sub 7 6 = 1 →
        sub 7 0 = 7 → estimate_number_of_clusters_ sub eps [0, 0, 0, 5, 6, 7] 5 = some 3 := by
  have h : ¬ ((7 : β) < eps) := not_lt.mpr heps
  have hgen : ∀ sub : β → β → β, sub 0 0 = 0 → sub 5 0 = 5 → sub 6 5 = 1 → sub 7 6 = 1 →
      sub 7 0 = 7 → estimate_number_of_clusters_ sub eps [0, 0, 0, 5, 6, 7] 5 = some 3 := by
    intro sub h00 h50 h65 h76 h70
    norm_num [estimate_number_of_clusters_, estimatorLoop, estimatorStep, estimatorLast,
      rangeBelow, updateMin, updateMax, h, h00, h50, h65, h76, h70]
  exact ⟨hgen _ (by norm_num) (by norm_num) (by norm_num) (by norm_num) (by norm_num), hgen⟩

/-- Witness for C7: `double` arithmetic and its machine epsilon. -/
theorem estimate_example_three_clusters_witness :
    (1 : ℚ) / 2 ^ 52 ≤ 7 ∧ binary64Sub 0 0 = 0 ∧ binary64Sub 5 0 = 5 ∧ binary64Sub 6 5 = 1 ∧
      binary64Sub 7 6 = 1 ∧ binary64Sub 7 0 = 7 ∧
      estimate_number_of_clusters_ (fun a b => a - b) ((1 : ℚ) / 2 ^ 52) [0, 0, 0, 5, 6, 7] 5
        = some 3 ∧
      estimate_number_of_clusters_ binary64Sub ((1 : ℚ) / 2 ^ 52) [0, 0, 0, 5, 6, 7] 5
        = some 3 := by
  have h00 : binary64Sub 0 0 = 0 := binary64Sub_self 0
  have h50 : binary64Sub 5 0 = 5 := by
    have h := binary64Sub_int 5 0 (by norm_num)
    norm_num at h
    exact h
  have h65 : binary64Sub 6 5 = 1 := by
    have h := binary64Sub_int 6 5 (by norm_num)
    norm_num at h
    exact h
  have h76 : binary64Sub 7 6 = 1 := by
    have h := binary64Sub_int 7 6 (by norm_num)
    norm_num at h
    exact h
  have h70 : binary64Sub 7 0 = 7 := by
    have h := binary64Sub_int 7 0 (by norm_num)
    norm_num at h
    exact h
  exact ⟨by norm_num, h00, h50, h65, h76, h70,
    (estimate_example_three_clusters ((1 : ℚ) / 2 ^ 52) (by norm_num)).1,
    (estimate_example_three_clusters ((1 : ℚ) / 2 ^ 52) (by norm_num)).2 binary64Sub h00 h50
      h65 h76 h70⟩

end Estimator

/-! ## `compute_dense_`: counts and stored eigenvalues -/

section ComputeDense

variable {α : Type} [LinearOrderedField α] {n : Nat}

theorem clampNegative_head (ev : Fin n → α) (m : Nat) (hm : m ≤ n) :
    clampNegative ((List.ofFn ev).take m)
      = List.ofFn (fun i : Fin m => max 0 (ev (Fin.castLE hm i))) := by
  apply List.ext_getElem
  · simp [clampNegative, hm]
  · intro i h1 h2
    simp only [clampNegative, List.getElem_map, List.getElem_take, List.getElem_ofFn]
    by_cases h : ev ⟨i, by simp at h2; omega⟩ < 0
    · simp [Fin.castLE, h, max_eq_left (le_of_lt h)]
    · simp [Fin.castLE, h, max_eq_right (not_lt.mp h)]

/-- The successful run of `compute_dense_`: the request fits the spectrum, the estimator (when
asked) answers `k`, and `k` columns are available. -/
theorem compute_dense_some (ops : ScalarOps α) (A : Matrix (Fin n) (Fin n) α) (c : Nat)
    (est : Bool) (ty : GraphLaplacianType) (k : Nat)
    (hm : num_eigenvalues n c est ≤ n)
    (hest : (if est then
        estimate_number_of_clusters_ ops.sub ops.epsilon
          (clampNegative ((List.ofFn (decompose ops ty A).eigenvalues).take
            (num_eigenvalues n c est))) c
      else some c) = some k)
    (hk : k ≤ n) :
    ∃ sc, compute_dense_ ops A c est ty = some sc ∧
      sc.eigenvalues_ = clampNegative ((List.ofFn (decompose ops ty A).eigenvalues).take
        (num_eigenvalues n c est)) ∧
      sc.num_rows = k ∧ sc.kmeans_num_clusters = k := by
  unfold compute_dense_
  simp only [head, if_pos hm]
  rw [hest]
  simp only [leftColsTranspose, dif_pos hk]
  exact ⟨_, rfl, rfl, rfl, rfl⟩

/-- What the estimator can return on a non-empty vector: the upper bound, `1`, or a value
between `1` and the length minus one. -/
theorem estimate_range (sub : α → α → α) (eps : α) (e : List α) (c : Nat) (hne : e ≠ []) :
    ∃ r, estimate_number_of_clusters_ sub eps e c = some r ∧
      (r = c ∨ r = 1 ∨ (1 ≤ r ∧ r + 1 ≤ e.length)) := by
  cases e with
  | nil => exact absurd rfl hne
  | cons e0 rest =>
    obtain ⟨mn, -, hmn⟩ := foldl_updateMin_none e0 rest
    obtain ⟨mx, -, hmx⟩ := foldl_updateMax_none e0 rest
    rw [estimate_eq sub eps e0 rest c mx mn hmx hmn]
    by_cases h : sub mx mn < eps
    · exact ⟨c, by simp [h], Or.inl rfl⟩
    · refine ⟨_, by rw [if_neg h], Or.inr ?_⟩
      rcases estimatorLoop_max_ind sub (e0 :: rest) 0
        { max_diff := e0, max_ind := 0, min_val := none, max_val := none } with h' | ⟨-, h'⟩
      · left
        simp only [] at h'
        rw [h']
      · right
        omega

theorem num_eigenvalues_true (c : Nat) (hc : c ≤ n) (hn : n < 2 ^ 63) :
    num_eigenvalues n c true = min (c + 1) n := by
  have h : (c + 1) % 2 ^ 64 = c + 1 := Nat.mod_eq_of_lt (by omega)
  unfold num_eigenvalues
  rw [if_pos rfl, h]

theorem clampedUpperBound_bounds (u : Nat) (hn : 1 ≤ n) :
    1 ≤ clampedUpperBound n u ∧ clampedUpperBound n u ≤ n := by
  unfold clampedUpperBound
  split_ifs with h
  · exact ⟨h.1, h.2⟩
  · exact ⟨hn, le_refl n⟩

theorem dynamic_eq (ops : ScalarOps α) (A : Matrix (Fin n) (Fin n) α) (u : Nat) (est : Bool)
    (ty : GraphLaplacianType) :
    SpectralClustering.dynamic ops A u est ty
      = compute_dense_ ops A (clampedUpperBound n u) est ty := by
  unfold SpectralClustering.dynamic clampedUpperBound
  split_ifs <;> rfl

/-- The run of `compute_dense_` on an upper bound `c` in `[1, n]` (`c = 0` allowed when no
estimate is asked for): it succeeds, stores the clamped head of the spectrum, and ends with a
cluster count between `1` (or `c`) and the bounds. -/
theorem compute_dense_run (ops : ScalarOps α) (A : Matrix (Fin n) (Fin n) α) (c : Nat)
    (est : Bool) (ty : GraphLaplacianType) (hc : c ≤ n) (hest : est = true → 1 ≤ c)
    (hn : n < 2 ^ 63) :
    ∃ sc, compute_dense_ ops A c est ty = some sc ∧
      sc.eigenvalues_ = clampNegative ((List.ofFn (decompose ops ty A).eigenvalues).take
        (num_eigenvalues n c est)) ∧
      num_eigenvalues n c est ≤ n ∧
      sc.num_rows ≤ c ∧ sc.num_rows ≤ num_eigenvalues n c est ∧
      (est = false → sc.num_rows = c) ∧ (est = true → 1 ≤ sc.num_rows) ∧
      sc.kmeans_num_clusters = sc.num_rows := by
  cases est with
  | false =>
    have hm : num_eigenvalues n c false ≤ n := by simpa [num_eigenvalues] using hc
    obtain ⟨sc, h1, h2, h3, h4⟩ := compute_dense_some ops A c false ty c hm (by simp) hc
    refine ⟨sc, h1, h2, hm, by omega, ?_, fun _ => h3, by simp, by omega⟩
    simp [num_eigenvalues, h3]
  | true =>
    have hc1 : 1 ≤ c := hest rfl
    have hme : num_eigenvalues n c true = min (c + 1) n := num_eigenvalues_true c hc hn
    have hm : num_eigenvalues n c true ≤ n := by rw [hme]; exact min_le_right _ _
    have hlen : (clampNegative ((List.ofFn (decompose ops ty A).eigenvalues).take
        (num_eigenvalues n c true))).length = min (c + 1) n := by
      simp [clampNegative, hme]
    have hne : clampNegative ((List.ofFn (decompose ops ty A).eigenvalues).take
        (num_eigenvalues n c true)) ≠ [] := by
      intro h0
      rw [h0] at hlen
      simp at hlen
      omega
    obtain ⟨r, hr, hr'⟩ := estimate_range ops.sub ops.epsilon _ c hne
    rw [hlen] at hr'
    have hrc : 1 ≤ r ∧ r ≤ c := by
      rcases hr' with h | h | ⟨h, h'⟩
      · omega
      · omega
      · have := min_le_left (c + 1) n
        omega
    have hcm : c ≤ min (c + 1) n := le_min (by omega) hc
    obtain ⟨sc, h1, h2, h3, h4⟩ :=
      compute_dense_some ops A c true ty r hm (by simpa using hr) (by omega)
    refine ⟨sc, h1, h2, hm, by omega, by rw [hme]; omega, by simp, fun _ => by omega, by omega⟩

/-- C3: in the run-time constructor, for every `n ≥ 1`, every caller-supplied upper bound,
either setting of the estimation flag, every Laplacian type and every solver output,
`1 ≤ final cluster count ≤ num_eigenvalues ≤ n`, and the final cluster count does not exceed
the clamped upper bound.  (`n` is an Eigen index, hence below `2^63`.) -/
theorem dynamic_cluster_count_invariant (ops : ScalarOps α) (A : Matrix (Fin n) (Fin n) α)
    (u : Nat) (est : Bool) (ty : GraphLaplacianType) (hn1 : 1 ≤ n) (hn : n < 2 ^ 63) :
    ∃ sc, SpectralClustering.dynamic ops A u est ty = some sc ∧
      1 ≤ sc.getNumberOfClusters ∧
      sc.getNumberOfClusters ≤ num_eigenvalues n (clampedUpperBound n u) est ∧
      num_eigenvalues n (clampedUpperBound n u) est ≤ n ∧
      sc.getNumberOfClusters ≤ clampedUpperBound n u ∧
      sc.getUsedEigenValues.length = num_eigenvalues n (clampedUpperBound n u) est := by
  obtain ⟨hb1, hb2⟩ := clampedUpperBound_bounds (n := n) u hn1
  obtain ⟨sc, h1, h2, h3, h4, h5, h6, h7, -⟩ :=
    compute_dense_run ops A (clampedUpperBound n u) est ty hb2 (fun _ => hb1) hn
  refine ⟨sc, by rw [dynamic_eq]; exact h1, ?_, h5, h3, h4, ?_⟩
  · cases est with
    | false =>
      have := h6 rfl
      simp only [SpectralClustering.getNumberOfClusters]
      omega
    | true => exact h7 rfl
  · simp only [SpectralClustering.getUsedEigenValues, h2, clampNegative, List.length_map,
      List.length_take, List.length_ofFn]
    omega

/-- Witness for C3: two points, the caller's bound `0`, estimation on. -/
theorem dynamic_cluster_count_invariant_witness :
    1 ≤ 2 ∧ 2 < 2 ^ 63 ∧
      ∃ sc, SpectralClustering.dynamic (tableOps [0, 2]) pairAffinity 0 true
          GraphLaplacianType.UNNORMALIZED = some sc ∧
        1 ≤ sc.getNumberOfClusters ∧
        sc.getNumberOfClusters ≤ num_eigenvalues 2 (clampedUpperBound 2 0) true ∧
        num_eigenvalues 2 (clampedUpperBound 2 0) true ≤ 2 ∧
        sc.getNumberOfClusters ≤ clampedUpperBound 2 0 ∧
        sc.getUsedEigenValues.length = num_eigenvalues 2 (clampedUpperBound 2 0) true :=
  ⟨by decide, by norm_num,
    dynamic_cluster_count_invariant (tableOps [0, 2]) pairAffinity 0 true
      GraphLaplacianType.UNNORMALIZED (by decide) (by norm_num)⟩

/-- C4 as stated fails: with `n = 3` points and requested count `c = 3`, estimation enabled,
`num_eigenvalues` is `3`, not `c + 1 = 4`. -/
theorem num_eigenvalues_not_always_succ :
    ¬ (∀ n c : Nat, 1 ≤ n → 1 ≤ c → c ≤ n →
        num_eigenvalues n c false = c ∧ num_eigenvalues n c true = c + 1) := by
  intro h
  have h3 := (h 3 3 (by decide) (by decide) (by decide)).2
  revert h3
  decide

/-- C4, amended: for `c ≤ n`, in particular for `1 ≤ c ≤ n` (with `n` an Eigen index, below
`2^63`), `num_eigenvalues`
equals `c` when estimation is disabled and `min (c + 1) n` when it is enabled, that is
`c + 1` when `c < n` and `n` when `c = n`. -/
theorem num_eigenvalues_spec (n c : Nat) (hc : c ≤ n) (hn : n < 2 ^ 63) :
    num_eigenvalues n c false = c ∧
      num_eigenvalues n c true = min (c + 1) n ∧
      (c < n → num_eigenvalues n c true = c + 1) ∧
      (c = n → num_eigenvalues n c true = n) := by
  have h := num_eigenvalues_true (n := n) c hc hn
  refine ⟨by simp [num_eigenvalues], h, ?_, ?_⟩
  · intro hlt
    rw [h]
    exact min_eq_left hlt
  · intro heq
    rw [h]
    exact min_eq_right (by omega)

/-- Witness for C4 (amended): `n = 5`, `c = 2`. -/
theorem num_eigenvalues_spec_witness :
    2 ≤ 5 ∧ 5 < 2 ^ 63 ∧
      (num_eigenvalues 5 2 false = 2 ∧
        num_eigenvalues 5 2 true = min (2 + 1) 5 ∧
        (2 < 5 → num_eigenvalues 5 2 true = 2 + 1) ∧
        (2 = 5 → num_eigenvalues 5 2 true = 5)) :=
  ⟨by decide, by norm_num, num_eigenvalues_spec 5 2 (by decide) (by norm_num)⟩

/-- C5: for each Laplacian type, when the solver's eigenvalues are ascending, the stored
sequence has length `num_eigenvalues`, its `i`-th entry is `max 0` of the `i`-th solver
eigenvalue, every entry is non-negative, and the sequence is ascending. -/
theorem stored_eigenvalues_clamped_ascending (ops : ScalarOps α)
    (A : Matrix (Fin n) (Fin n) α) (c : Nat) (est : Bool) (ty : GraphLaplacianType)
    (hc : c ≤ n) (hest : est = true → 1 ≤ c) (hn : n < 2 ^ 63)
    (hasc : Monotone (decompose ops ty A).eigenvalues) :
    ∃ sc, compute_dense_ ops A c est ty = some sc ∧
      ∃ hm : num_eigenvalues n c est ≤ n,
        sc.getUsedEigenValues.length = num_eigenvalues n c est ∧
        sc.getUsedEigenValues = List.ofFn (fun i : Fin (num_eigenvalues n c est) =>
          max 0 ((decompose ops ty A).eigenvalues (Fin.castLE hm i))) ∧
        (∀ x ∈ sc.getUsedEigenValues, 0 ≤ x) ∧
        sc.getUsedEigenValues.Sorted (· ≤ ·) := by
  obtain ⟨sc, h1, h2, hm, -⟩ := compute_dense_run ops A c est ty hc hest hn
  have heq : sc.getUsedEigenValues = List.ofFn (fun i : Fin (num_eigenvalues n c est) =>
      max 0 ((decompose ops ty A).eigenvalues (Fin.castLE hm i))) := by
    rw [SpectralClustering.getUsedEigenValues, h2, clampNegative_head _ _ hm]
  refine ⟨sc, h1, hm, ?_, heq, ?_, ?_⟩
  · rw [heq, List.length_ofFn]
  · intro x hx
    rw [heq, List.mem_ofFn] at hx
    obtain ⟨i, rfl⟩ := hx
    exact le_max_left _ _
  · rw [heq, List.sorted_le_ofFn_iff]
    intro i j hij
    exact max_le_max (le_refl _) (hasc (by simpa [Fin.castLE] using hij))

/-- Witness for C5: two points, spectrum `0, 2`, upper bound `1`, estimation on. -/
theorem stored_eigenvalues_clamped_ascending_witness :
    1 ≤ 2 ∧ ((true = true) → 1 ≤ 1) ∧ 2 < 2 ^ 63 ∧
      Monotone (decompose (tableOps [0, 2]) GraphLaplacianType.UNNORMALIZED
        pairAffinity).eigenvalues ∧
      ∃ sc, compute_dense_ (tableOps [0, 2]) pairAffinity 1 true
          GraphLaplacianType.UNNORMALIZED = some sc ∧
        ∃ hm : num_eigenvalues 2 1 true ≤ 2,
          sc.getUsedEigenValues.length = num_eigenvalues 2 1 true ∧
          sc.getUsedEigenValues = List.ofFn (fun i : Fin (num_eigenvalues 2 1 true) =>
            max 0 ((decompose (tableOps [0, 2]) GraphLaplacianType.UNNORMALIZED
              pairAffinity).eigenvalues (Fin.castLE hm i))) ∧
          (∀ x ∈ sc.getUsedEigenValues, 0 ≤ x) ∧
          sc.getUsedEigenValues.Sorted (· ≤ ·) := by
  have hmono : Monotone (decompose (tableOps [0, 2]) GraphLaplacianType.UNNORMALIZED
      pairAffinity).eigenvalues := by
    intro i j hij
    fin_cases i <;> fin_cases j <;> simp [decompose, tableOps] at hij ⊢
  exact ⟨by decide, fun _ => le_refl 1, by norm_num, hmono,
    stored_eigenvalues_clamped_ascending (tableOps [0, 2]) pairAffinity 1 true
      GraphLaplacianType.UNNORMALIZED (by decide) (fun _ => le_refl 1) (by norm_num) hmono⟩

/-- C6: in the run-time constructor with estimation disabled, for every `n ≥ 1`, every upper
bound `u ≥ 1` and every Laplacian type, the final cluster count is `min u n`: it is `u` when
`u ≤ n` and `n` when `u` exceeds `n`. -/
theorem dynamic_without_estimation_count (ops : ScalarOps α) (A : Matrix (Fin n) (Fin n) α)
    (u : Nat) (ty : GraphLaplacianType) (hn1 : 1 ≤ n) (hu : 1 ≤ u) :
    ∃ sc, SpectralClustering.dynamic ops A u false ty = some sc ∧
      sc.getNumberOfClusters = min u n ∧
      (u ≤ n → sc.getNumberOfClusters = u) ∧ (n < u → sc.getNumberOfClusters = n) := by
  obtain ⟨-, hb⟩ := clampedUpperBound_bounds (n := n) u hn1
  have hm : num_eigenvalues n (clampedUpperBound n u) false ≤ n := by
    simpa [num_eigenvalues] using hb
  obtain ⟨sc, h1, -, h3, -⟩ :=
    compute_dense_some ops A (clampedUpperBound n u) false ty (clampedUpperBound n u) hm
      (by simp) hb
  have hval : sc.getNumberOfClusters = min u n := by
    rw [SpectralClustering.getNumberOfClusters, h3]
    unfold clampedUpperBound
    split_ifs with h
    · exact (min_eq_left h.2).symm
    · have : n ≤ u := by
        by_contra hlt
        exact h ⟨hu, by omega⟩
      exact (min_eq_right this).symm
  refine ⟨sc, by rw [dynamic_eq]; exact h1, hval, ?_, ?_⟩
  · intro h
    rw [hval]
    exact min_eq_left h
  · intro h
    rw [hval]
    exact min_eq_right (le_of_lt h)

/-- Witness for C6: two points and the upper bound `5`, which is clamped to `2`. -/
theorem dynamic_without_estimation_count_witness :
    1 ≤ 2 ∧ 1 ≤ 5 ∧
      ∃ sc, SpectralClustering.dynamic (tableOps [0, 2]) pairAffinity 5 false
          GraphLaplacianType.NORMALIZED_RANDOM_WALK = some sc ∧
        sc.getNumberOfClusters = min 5 2 ∧
        (5 ≤ 2 → sc.getNumberOfClusters = 5) ∧ (2 < 5 → sc.getNumberOfClusters = 2) :=
  ⟨by decide, by decide,
    dynamic_without_estimation_count (tableOps [0, 2]) pairAffinity 5
      GraphLaplacianType.NORMALIZED_RANDOM_WALK (by decide) (by decide)⟩

end ComputeDense

/-! ## Laplacians and the embedding -/

section Embedding

variable {α : Type} [LinearOrderedField α] {n : Nat}

end Embedding

/-! ## End to end: two blocks of sizes 4 and 5 -/

section TwoBlocks

open Polynomial

end TwoBlocks

/-! ## The seed of the running maximum -/

section EstimatorSeed

variable {α : Type} [LinearOrder α]

/-- A non-empty list has a first position at which its largest entry sits. -/
theorem exists_first_largest (l : List α) (hne : l ≠ []) :
    ∃ (i : Nat) (g : α), l[i]? = some g ∧ (∀ g' ∈ l, g' ≤ g) ∧
      ∀ (j : Nat) (g' : α), j < i → l[j]? = some g' → g' < g := by
  induction l with
  | nil => exact absurd rfl hne
  | cons a rest ih =>
    by_cases hrest : rest = []
    · subst hrest
      refine ⟨0, a, rfl, ?_, ?_⟩
      · intro g' hg'
        simp only [List.mem_singleton] at hg'
        exact le_of_eq hg'
      · intro j g' hj
        exact absurd hj (Nat.not_lt_zero j)
    · obtain ⟨i, g, hg, hmax, hfirst⟩ := ih hrest
      by_cases hag : g ≤ a
      · refine ⟨0, a, by simp, ?_, ?_⟩
        · intro g' hg'
          rcases List.mem_cons.mp hg' with rfl | hg'
          · exact le_refl _
          · exact le_trans (hmax g' hg') hag
        · intro j g' hj
          exact absurd hj (Nat.not_lt_zero j)
      · have hlt : a < g := not_le.mp hag
        refine ⟨i + 1, g, by simpa using hg, ?_, ?_⟩
        · intro g' hg'
          rcases List.mem_cons.mp hg' with rfl | hg'
          · exact le_of_lt hlt
          · exact hmax g' hg'
        · intro j g' hj hg'
          cases j with
          | zero =>
            simp only [List.getElem?_cons_zero, Option.some.injEq] at hg'
            rw [← hg']
            exact hlt
          | succ j' =>
            simp only [List.getElem?_cons_succ] at hg'
            exact hfirst j' g' (by omega) hg'

theorem gaps_ne_nil {β : Type} (sub : β → β → β) (e : List β) (hlen : 2 ≤ e.length) :
    gaps sub e ≠ [] := by
  cases e with
  | nil => simp at hlen
  | cons a rest =>
    cases rest with
    | nil => simp at hlen
    | cons b rest' =>
      rw [gaps_cons_cons]
      exact List.cons_ne_nil _ _

/-- On an ascending vector every computed gap is at least `z`, when the subtraction of an
ordered pair never falls below `z`. -/
theorem sorted_gaps_lower_bound (sub : α → α → α) (z : α) (e : List α)
    (hasc : e.Sorted (· ≤ ·)) (hsub : ∀ a b, a ≤ b → z ≤ sub b a) :
    ∀ g ∈ gaps sub e, z ≤ g := by
  induction e with
  | nil => intro g hg; simp [gaps] at hg
  | cons a rest ih =>
    cases rest with
    | nil => intro g hg; simp [gaps] at hg
    | cons b rest' =>
      intro g hg
      rw [gaps_cons_cons] at hg
      have hab : a ≤ b := List.rel_of_sorted_cons hasc b (List.mem_cons_self _ _)
      rcases List.mem_cons.mp hg with rfl | hg
      · exact hsub a b hab
      · exact ih (List.Sorted.of_cons hasc) g hg

/-- The first index of the largest gap is unique. -/
theorem isFirstLargestGap_unique {sub : α → α → α} {e : List α} {i j : Nat}
    (hi : IsFirstLargestGap sub e i) (hj : IsFirstLargestGap sub e j) : j = i := by
  obtain ⟨g, hg, hmax, hfirst⟩ := hi
  obtain ⟨g', hg', hmax', hfirst'⟩ := hj
  have hgg : g' = g :=
    le_antisymm (hmax g' (List.getElem?_mem hg')) (hmax' g (List.getElem?_mem hg))
  rcases Nat.lt_trichotomy j i with h | h | h
  · exact absurd (hfirst j g' h hg') (by rw [hgg]; exact lt_irrefl g)
  · exact h
  · exact absurd (hfirst' i g h hg) (by rw [hgg]; exact lt_irrefl g)

/-- In `double` arithmetic `2^53 - 1/2` is a tie and rounds to the even neighbour `2^53`. -/
theorem binary64Sub_tie : binary64Sub (2 ^ 53) (1 / 2) = 2 ^ 53 := by
  unfold binary64Sub
  rw [roundBinary64_eval _ 52 (2 ^ 53 - 1) (by norm_num [abs_of_pos])
    (by norm_num [abs_of_pos]) (by norm_num) (by rw [Int.floor_eq_iff]; norm_num)]
  norm_num

/-- In `double` arithmetic `2^54 - 1/2` rounds to `2^54`. -/
theorem binary64Sub_range_sample : binary64Sub (2 ^ 54) (1 / 2) = 2 ^ 54 := by
  unfold binary64Sub
  rw [roundBinary64_eval _ 53 (2 ^ 53 - 1) (by norm_num [abs_of_pos])
    (by norm_num [abs_of_pos]) (by norm_num) (by rw [Int.floor_eq_iff]; norm_num)]
  norm_num

theorem binary64Sub_pow_sample : binary64Sub (2 ^ 54) (2 ^ 53) = 2 ^ 53 := by
  rw [binary64Sub_exact (2 ^ 54) (2 ^ 53) 1 53 (by norm_num) (by norm_num) (by norm_num)]
  norm_num

/-- C16 as stated, with exact gaps, fails: on `[1/2, 2^53, 2^54]` the exact gaps are
`2^53 - 1/2` and `2^53`, so the first largest gap sits at index `1` and exceeds
`eigenvalues[0]`, and the claim asks for `2`; in `double` arithmetic the first difference
rounds to `2^53`, the two computed gaps tie, and the code returns `1`. -/
theorem estimate_exact_gap_index_not_returned :
    ¬ (∀ (e : List ℚ) (k i : Nat) (e0 g mx mn : ℚ),
        2 ≤ e.length → IsMaxCoeff e mx → IsMinCoeff e mn → ¬ (mx - mn < 1 / 2 ^ 52) →
        e.head? = some e0 → IsFirstLargestGap (fun a b => a - b) e i →
        (gaps (fun a b => a - b) e)[i]? = some g →
        (e0 < g → estimate_number_of_clusters_ binary64Sub ((1 : ℚ) / 2 ^ 52) e k
          = some (i + 1)) ∧
        (¬ e0 < g → estimate_number_of_clusters_ binary64Sub ((1 : ℚ) / 2 ^ 52) e k
          = some 1)) := by
  intro h
  have hmem : ∀ x ∈ ([1 / 2, 2 ^ 53, 2 ^ 54] : List ℚ), x = 1 / 2 ∨ x = 2 ^ 53 ∨ x = 2 ^ 54 := by
    intro x hx
    simpa using hx
  have hmx : IsMaxCoeff ([1 / 2, 2 ^ 53, 2 ^ 54] : List ℚ) (2 ^ 54) :=
    ⟨by simp, fun x hx => by rcases hmem x hx with rfl | rfl | rfl <;> norm_num⟩
  have hmn : IsMinCoeff ([1 / 2, 2 ^ 53, 2 ^ 54] : List ℚ) (1 / 2) :=
    ⟨by simp, fun x hx => by rcases hmem x hx with rfl | rfl | rfl <;> norm_num⟩
  have hgaps : gaps (fun a b : ℚ => a - b) [1 / 2, 2 ^ 53, 2 ^ 54]
      = [2 ^ 53 - 1 / 2, 2 ^ 54 - 2 ^ 53] := by
    simp [gaps]
  have hfirst : IsFirstLargestGap (fun a b : ℚ => a - b) [1 / 2, 2 ^ 53, 2 ^ 54] 1 := by
    refine ⟨2 ^ 54 - 2 ^ 53, by rw [hgaps]; rfl, ?_, ?_⟩
    · intro g' hg'
      rw [hgaps] at hg'
      simp only [List.mem_cons, List.mem_singleton, List.not_mem_nil, or_false] at hg'
      rcases hg' with rfl | rfl <;> norm_num
    · intro j g' hj hg'
      have hj0 : j = 0 := by omega
      subst hj0
      rw [hgaps] at hg'
      simp only [List.getElem?_cons_zero, Option.some.injEq] at hg'
      rw [← hg']
      norm_num
  have hclaim := (h [1 / 2, 2 ^ 53, 2 ^ 54] 5 1 (1 / 2) (2 ^ 54 - 2 ^ 53) (2 ^ 54) (1 / 2)
    (by simp) hmx hmn (by norm_num) rfl hfirst (by rw [hgaps]; rfl)).1 (by norm_num)
  have hcgaps : gaps binary64Sub ([1 / 2, 2 ^ 53, 2 ^ 54] : List ℚ) = [2 ^ 53, 2 ^ 53] := by
    simp only [gaps, List.tail_cons, List.zipWith_cons_cons, List.zipWith_nil_right,
      binary64Sub_tie, binary64Sub_pow_sample]
  have hloop : (estimatorLoop binary64Sub ([1 / 2, 2 ^ 53, 2 ^ 54] : List ℚ) 0
      { max_diff := 1 / 2, max_ind := 0, min_val := none, max_val := none }).max_ind
      = 0 + 0 := by
    refine estimatorLoop_first_largest binary64Sub _ 0 _ 0 (2 ^ 53) (by rw [hcgaps]; rfl) ?_ ?_
      (by norm_num)
    · intro g' hg'
      rw [hcgaps] at hg'
      simp only [List.mem_cons, List.mem_singleton, List.not_mem_nil, or_false] at hg'
      rcases hg' with rfl | rfl <;> exact le_refl _
    · intro j g' hj
      exact absurd hj (Nat.not_lt_zero j)
  rw [estimate_eq binary64Sub ((1 : ℚ) / 2 ^ 52) (1 / 2) [2 ^ 53, 2 ^ 54] 5 (2 ^ 54) (1 / 2)
    hmx hmn, binary64Sub_range_sample, if_neg (by norm_num), hloop] at hclaim
  exact absurd hclaim (by decide)

/-- C16, amended: for every `ScalarT` subtraction `sub`, on a vector of length at least 2
whose computed range `sub max min` is not below machine epsilon, let `i` be the (unique)
first index of the largest computed gap `g = sub e[i+1] e[i]`.  The estimator returns `i + 1`
when `g` strictly exceeds `eigenvalues[0]`, and `1` otherwise, because the running maximum
starts at `eigenvalues[0]`.  On an ascending vector with `eigenvalues[0] = 0` it returns
`i + 1`, provided the subtraction of an ordered pair is never negative (as in IEEE
arithmetic). -/
theorem estimate_seeded_with_first_entry [Zero α] (sub : α → α → α) (eps : α) (e : List α)
    (k : Nat) (e0 mx mn : α)
    (hlen : 2 ≤ e.length) (hmx : IsMaxCoeff e mx) (hmn : IsMinCoeff e mn)
    (hrange : ¬ (sub mx mn < eps)) (he0 : e.head? = some e0) :
    ∃ i g, (gaps sub e)[i]? = some g ∧ IsFirstLargestGap sub e i ∧
      (∀ j, IsFirstLargestGap sub e j → j = i) ∧
      (e0 < g → estimate_number_of_clusters_ sub eps e k = some (i + 1)) ∧
      (¬ e0 < g → estimate_number_of_clusters_ sub eps e k = some 1) ∧
      (e.Sorted (· ≤ ·) → e0 = 0 → (∀ a b, a ≤ b → 0 ≤ sub b a) →
        estimate_number_of_clusters_ sub eps e k = some (i + 1)) := by
  obtain ⟨i, g, hg, hmax, hfirst⟩ := exists_first_largest (gaps sub e) (gaps_ne_nil sub e hlen)
  have hi : IsFirstLargestGap sub e i := ⟨g, hg, hmax, hfirst⟩
  cases e with
  | nil => simp at he0
  | cons a rest =>
    simp only [List.head?_cons, Option.some.injEq] at he0
    subst he0
    have hval : estimate_number_of_clusters_ sub eps (a :: rest) k
        = some ((estimatorLoop sub (a :: rest) 0
          { max_diff := a, max_ind := 0, min_val := none, max_val := none }).max_ind + 1) := by
      rw [estimate_eq sub eps a rest k mx mn hmx hmn, if_neg hrange]
    have hgt : a < g → estimate_number_of_clusters_ sub eps (a :: rest) k = some (i + 1) := by
      intro hlt
      have h := estimatorLoop_first_largest sub (a :: rest) 0
        { max_diff := a, max_ind := 0, min_val := none, max_val := none } i g hg hmax hfirst hlt
      rw [hval, h, Nat.zero_add]
    have hle : ¬ a < g → estimate_number_of_clusters_ sub eps (a :: rest) k = some 1 := by
      intro hnlt
      have h := (estimatorLoop_no_update sub (a :: rest) 0
        { max_diff := a, max_ind := 0, min_val := none, max_val := none }
        (fun g' hg' => le_trans (hmax g' hg') (not_lt.mp hnlt))).1
      rw [hval, h]
    refine ⟨i, g, hg, hi, fun j hj => isFirstLargestGap_unique hi hj, hgt, hle, ?_⟩
    intro hasc h0 hsub
    by_cases hlt : a < g
    · exact hgt hlt
    · have hi0 : i = 0 := by
        by_contra hne
        have hpos : 0 < i := Nat.pos_of_ne_zero hne
        have hlen0 : 0 < (gaps sub (a :: rest)).length := by
          obtain ⟨hlt', -⟩ := List.getElem?_eq_some.mp hg
          omega
        have h0' := hfirst 0 ((gaps sub (a :: rest))[0]) hpos (List.getElem?_eq_getElem hlen0)
        have hnn := sorted_gaps_lower_bound sub 0 (a :: rest) hasc hsub _
          (List.getElem_mem hlen0)
        have hg0 : g ≤ 0 := by
          rw [← h0]
          exact not_lt.mp hlt
        exact absurd (lt_of_le_of_lt hnn h0') (not_lt.mpr hg0)
      rw [hle hlt, hi0]

/-- Witness for C16 (amended), in `double` arithmetic: `[3, 4, 6]`, non-flat, whose largest
gap `2` at index `1` stays below the seed `3`; and the ascending `[0, 1, 3, 4]` with first
entry `0`, where the hypotheses of the last clause hold as well. -/
theorem estimate_seeded_with_first_entry_witness :
    (2 ≤ ([3, 4, 6] : List ℚ).length ∧ IsMaxCoeff ([3, 4, 6] : List ℚ) 6 ∧
      IsMinCoeff ([3, 4, 6] : List ℚ) 3 ∧ ¬ (binary64Sub 6 3 < (1 : ℚ) / 2 ^ 52) ∧
      ([3, 4, 6] : List ℚ).head? = some 3 ∧
      ∃ i g, (gaps binary64Sub ([3, 4, 6] : List ℚ))[i]? = some g ∧
        IsFirstLargestGap binary64Sub ([3, 4, 6] : List ℚ) i ∧
        (∀ j, IsFirstLargestGap binary64Sub ([3, 4, 6] : List ℚ) j → j = i) ∧
        (3 < g → estimate_number_of_clusters_ binary64Sub ((1 : ℚ) / 2 ^ 52) [3, 4, 6] 2
          = some (i + 1)) ∧
        (¬ 3 < g → estimate_number_of_clusters_ binary64Sub ((1 : ℚ) / 2 ^ 52) [3, 4, 6] 2
          = some 1) ∧
        (([3, 4, 6] : List ℚ).Sorted (· ≤ ·) → (3 : ℚ) = 0 →
          (∀ a b : ℚ, a ≤ b → 0 ≤ binary64Sub b a) →
          estimate_number_of_clusters_ binary64Sub ((1 : ℚ) / 2 ^ 52) [3, 4, 6] 2
            = some (i + 1))) ∧
      (2 ≤ ([0, 1, 3, 4] : List ℚ).length ∧ IsMaxCoeff ([0, 1, 3, 4] : List ℚ) 4 ∧
        IsMinCoeff ([0, 1, 3, 4] : List ℚ) 0 ∧ ¬ (binary64Sub 4 0 < (1 : ℚ) / 2 ^ 52) ∧
        ([0, 1, 3, 4] : List ℚ).head? = some 0 ∧
        ([0, 1, 3, 4] : List ℚ).Sorted (· ≤ ·) ∧
        (∀ a b : ℚ, a ≤ b → 0 ≤ binary64Sub b a) ∧
        ∃ i, IsFirstLargestGap binary64Sub ([0, 1, 3, 4] : List ℚ) i ∧
          estimate_number_of_clusters_ binary64Sub ((1 : ℚ) / 2 ^ 52) [0, 1, 3, 4] 3
            = some (i + 1)) := by
  have hmem : ∀ x ∈ ([3, 4, 6] : List ℚ), x = 3 ∨ x = 4 ∨ x = 6 := by
    intro x hx
    simpa using hx
  have hmx : IsMaxCoeff ([3, 4, 6] : List ℚ) 6 :=
    ⟨by simp, fun x hx => by rcases hmem x hx with rfl | rfl | rfl <;> norm_num⟩
  have hmn : IsMinCoeff ([3, 4, 6] : List ℚ) 3 :=
    ⟨by simp, fun x hx => by rcases hmem x hx with rfl | rfl | rfl <;> norm_num⟩
  have h63 : binary64Sub 6 3 = 3 := by
    have h := binary64Sub_int 6 3 (by norm_num)
    norm_num at h
    exact h
  have hrange : ¬ (binary64Sub 6 3 < (1 : ℚ) / 2 ^ 52) := by
    rw [h63]
    norm_num
  have hmem' : ∀ x ∈ ([0, 1, 3, 4] : List ℚ), x = 0 ∨ x = 1 ∨ x = 3 ∨ x = 4 := by
    intro x hx
    simpa using hx
  have hmx' : IsMaxCoeff ([0, 1, 3, 4] : List ℚ) 4 :=
    ⟨by simp, fun x hx => by rcases hmem' x hx with rfl | rfl | rfl | rfl <;> norm_num⟩
  have hmn' : IsMinCoeff ([0, 1, 3, 4] : List ℚ) 0 :=
    ⟨by simp, fun x hx => by rcases hmem' x hx with rfl | rfl | rfl | rfl <;> norm_num⟩
  have h40 : binary64Sub 4 0 = 4 := by
    have h := binary64Sub_int 4 0 (by norm_num)
    norm_num at h
    exact h
  have hrange' : ¬ (binary64Sub 4 0 < (1 : ℚ) / 2 ^ 52) := by
    rw [h40]
    norm_num
  have hsorted : ([0, 1, 3, 4] : List ℚ).Sorted (· ≤ ·) := by
    norm_num [List.Sorted]
  refine ⟨⟨by simp, hmx, hmn, hrange, rfl,
    estimate_seeded_with_first_entry binary64Sub ((1 : ℚ) / 2 ^ 52) [3, 4, 6] 2 3 6 3 (by simp)
      hmx hmn hrange rfl⟩, by simp, hmx', hmn', hrange', rfl, hsorted, binary64Sub_nonneg, ?_⟩
  obtain ⟨i, g, -, hi, -, -, -, h3⟩ :=
    estimate_seeded_with_first_entry binary64Sub ((1 : ℚ) / 2 ^ 52) [0, 1, 3, 4] 3 0 4 0
      (by simp) hmx' hmn' hrange' rfl
  exact ⟨i, hi, h3 hsorted rfl binary64Sub_nonneg⟩

end EstimatorSeed

/-! ## The two constructors -/

section Constructors

variable {α : Type} [LinearOrderedField α] {n : Nat}

theorem pairSpectrum_stored (m : Nat) (hm : m = 2) :
    clampNegative ((List.ofFn (decompose (tableOps [0, 2]) GraphLaplacianType.UNNORMALIZED
      pairAffinity).eigenvalues).take m) = [0, 2] := by
  subst hm
  have h : List.ofFn (decompose (tableOps [0, 2]) GraphLaplacianType.UNNORMALIZED
      pairAffinity).eigenvalues = [0, 2] := rfl
  rw [h]
  norm_num [clampNegative]

/-- The estimator on the spectrum `[0, 2]` of two joined points, in `double` arithmetic. -/
theorem estimate_pair_spectrum :
    estimate_number_of_clusters_ (tableOps [0, 2]).sub (tableOps [0, 2]).epsilon [0, 2] 2
      = some 1 := by
  have h20 : binary64Sub 2 0 = 2 := by
    have h := binary64Sub_int 2 0 (by norm_num)
    norm_num at h
    exact h
  norm_num [estimate_number_of_clusters_, estimatorLoop, estimatorStep, estimatorLast,
    rangeBelow, updateMin, updateMax, tableOps, h20]

/-- C15: the run-time constructor called with `max_num_clusters = 0` and the flag
`estimate_num_clusters = false` (its default) does not figure the count out from the
eigenvalues.  On two points joined by a unit edge (spectrum `0, 2`) it stores `[0, 2]` and
ends with `2` clusters, the number of points, although the eigengap estimate on the stored
eigenvalues with upper bound `2` is `1`; only with the flag set does it end with `1`. -/
theorem dynamic_zero_bound_skips_estimate :
    (∃ sc, SpectralClustering.dynamic (tableOps [0, 2]) pairAffinity 0 false
          GraphLaplacianType.UNNORMALIZED = some sc ∧
        sc.getUsedEigenValues = [0, 2] ∧
        estimate_number_of_clusters_ (tableOps [0, 2]).sub (tableOps [0, 2]).epsilon
          sc.getUsedEigenValues 2 = some 1 ∧
        sc.getNumberOfClusters = 2) ∧
      (∃ sc, SpectralClustering.dynamic (tableOps [0, 2]) pairAffinity 0 true
          GraphLaplacianType.UNNORMALIZED = some sc ∧
        sc.getUsedEigenValues = [0, 2] ∧
        sc.getNumberOfClusters = 1) := by
  have hest := estimate_pair_spectrum
  constructor
  · obtain ⟨sc, h1, h2, h3, -⟩ :=
      compute_dense_some (tableOps [0, 2]) pairAffinity 2 false GraphLaplacianType.UNNORMALIZED
        2 (by decide) (by simp) (by decide)
    have hused : sc.getUsedEigenValues = [0, 2] := by
      rw [SpectralClustering.getUsedEigenValues, h2]
      exact pairSpectrum_stored _ (by decide)
    refine ⟨sc, ?_, hused, ?_, h3⟩
    · rw [dynamic_eq]
      exact h1
    · rw [hused]
      exact hest
  · obtain ⟨sc, h1, h2, h3, -⟩ :=
      compute_dense_some (tableOps [0, 2]) pairAffinity 2 true GraphLaplacianType.UNNORMALIZED
        1 (by decide)
        (by rw [pairSpectrum_stored _ (by decide)]; simpa using hest) (by decide)
    refine ⟨sc, ?_, ?_, h3⟩
    · rw [dynamic_eq]
      exact h1
    · rw [SpectralClustering.getUsedEigenValues, h2]
      exact pairSpectrum_stored _ (by decide)

end Constructors

/-! ## Spectral facts about the Laplacians -/

section Spectral

variable {α : Type} [LinearOrderedField α] {n : Nat}

theorem L_unnormalized_mulVec (A : Matrix (Fin n) (Fin n) α) (x : Fin n → α) (i : Fin n) :
    Matrix.mulVec (L_unnormalized A) x i
      = rowwiseSum A i * x i - ∑ j, A i j * x j := by
  simp only [L_unnormalized, D, Matrix.sub_mulVec, Pi.sub_apply, Matrix.mulVec_diagonal]
  rfl

/-- The quadratic form of `D - A` as a sum over pairs, for a symmetric `A`. -/
theorem L_unnormalized_quadratic (A : Matrix (Fin n) (Fin n) α) (hA : A.IsSymm)
    (x : Fin n → α) :
    Matrix.dotProduct x (Matrix.mulVec (L_unnormalized A) x)
      = (1 / 2) * ∑ i, ∑ j, A i j * (x i - x j) ^ 2 := by
  have hswap : (∑ i, ∑ j, A i j * (x j * x j)) = ∑ i, ∑ j, A i j * (x i * x i) := by
    rw [Finset.sum_comm]
    refine Finset.sum_congr rfl (fun i _ => Finset.sum_congr rfl (fun j _ => ?_))
    rw [hA.apply]
  have hlhs : Matrix.dotProduct x (Matrix.mulVec (L_unnormalized A) x)
      = (∑ i, ∑ j, A i j * (x i * x i)) - ∑ i, ∑ j, A i j * (x i * x j) := by
    unfold Matrix.dotProduct
    rw [← Finset.sum_sub_distrib]
    refine Finset.sum_congr rfl (fun i _ => ?_)
    rw [L_unnormalized_mulVec, ← Finset.sum_sub_distrib]
    unfold rowwiseSum
    rw [mul_sub, Finset.sum_mul, Finset.mul_sum, Finset.mul_sum, ← Finset.sum_sub_distrib]
    refine Finset.sum_congr rfl (fun j _ => ?_)
    ring
  have hrhs : (∑ i, ∑ j, A i j * (x i - x j) ^ 2)
      = (∑ i, ∑ j, A i j * (x i * x i)) - 2 * (∑ i, ∑ j, A i j * (x i * x j))
        + ∑ i, ∑ j, A i j * (x j * x j) := by
    rw [Finset.mul_sum, ← Finset.sum_sub_distrib, ← Finset.sum_add_distrib]
    refine Finset.sum_congr rfl (fun i _ => ?_)
    rw [Finset.mul_sum, ← Finset.sum_sub_distrib, ← Finset.sum_add_distrib]
    refine Finset.sum_congr rfl (fun j _ => ?_)
    ring
  rw [hlhs, hrhs, hswap]
  ring

/-- C11: for a symmetric affinity matrix with non-negative entries the unnormalized
Laplacian `L = D - A` is positive semi-definite: `xᵀ L x` equals half the sum of
`A i j * (x i - x j)^2`, hence is non-negative, so every eigenvalue of `L` (with a nonzero
eigenvector) is non-negative. -/
theorem unnormalized_laplacian_psd (A : Matrix (Fin n) (Fin n) α) (hA : A.IsSymm)
    (hnn : ∀ i j, 0 ≤ A i j) (x : Fin n → α) :
    Matrix.dotProduct x (Matrix.mulVec (L_unnormalized A) x)
        = (1 / 2) * ∑ i, ∑ j, A i j * (x i - x j) ^ 2 ∧
      0 ≤ Matrix.dotProduct x (Matrix.mulVec (L_unnormalized A) x) ∧
      ∀ μ : α, x ≠ 0 → Matrix.mulVec (L_unnormalized A) x = μ • x → 0 ≤ μ := by
  have hq := L_unnormalized_quadratic A hA x
  have hpos : 0 ≤ Matrix.dotProduct x (Matrix.mulVec (L_unnormalized A) x) := by
    rw [hq]
    refine mul_nonneg (by norm_num) ?_
    exact Finset.sum_nonneg (fun i _ => Finset.sum_nonneg
      (fun j _ => mul_nonneg (hnn i j) (sq_nonneg _)))
  refine ⟨hq, hpos, ?_⟩
  intro μ hx hμ
  rw [hμ, Matrix.dotProduct_smul, smul_eq_mul] at hpos
  have hxx : 0 < Matrix.dotProduct x x := by
    obtain ⟨i, hi⟩ := Function.ne_iff.mp hx
    have hi' : x i ≠ 0 := by simpa using hi
    have hle : x i * x i ≤ Matrix.dotProduct x x :=
      Finset.single_le_sum (f := fun j => x j * x j) (fun j _ => mul_self_nonneg (x j))
        (Finset.mem_univ i)
    exact lt_of_lt_of_le (mul_self_pos.mpr hi') hle
  by_contra hneg
  have : μ * Matrix.dotProduct x x < 0 := mul_neg_of_neg_of_pos (not_le.mp hneg) hxx
  exact absurd hpos (not_le.mpr this)

/-- Witness for C11: the two-point affinity matrix and the vector `(1, -1)`. -/
theorem unnormalized_laplacian_psd_witness :
    pairAffinity.IsSymm ∧ (∀ i j, 0 ≤ pairAffinity i j) ∧
      (Matrix.dotProduct (![1, -1] : Fin 2 → ℚ)
          (Matrix.mulVec (L_unnormalized pairAffinity) ![1, -1])
          = (1 / 2) * ∑ i, ∑ j, pairAffinity i j * ((![1, -1] : Fin 2 → ℚ) i - ![1, -1] j) ^ 2 ∧
        0 ≤ Matrix.dotProduct (![1, -1] : Fin 2 → ℚ)
          (Matrix.mulVec (L_unnormalized pairAffinity) ![1, -1]) ∧
        ∀ μ : ℚ, (![1, -1] : Fin 2 → ℚ) ≠ 0 →
          Matrix.mulVec (L_unnormalized pairAffinity) ![1, -1] = μ • ![1, -1] → 0 ≤ μ) := by
  have hsymm : pairAffinity.IsSymm := by
    ext i j
    simp [pairAffinity, eq_comm]
  have hnn : ∀ i j, 0 ≤ pairAffinity i j := by
    intro i j
    unfold pairAffinity
    split_ifs <;> norm_num
  exact ⟨hsymm, hnn, unnormalized_laplacian_psd pairAffinity hsymm hnn ![1, -1]⟩

/-- C12: when all degrees are strictly positive (and `n ≥ 1`), `0` is an eigenvalue of all
three formulations: the all-ones vector is nonzero and satisfies `(D - A) v = 0`, hence also
`(D - A) v = 0 • D v` for the random-walk pencil, and the vector of the square roots of the
degrees is nonzero and lies in the kernel of `I - Dtm12 * A * Dtm12`.  Exact arithmetic:
`sqrt` is a non-negative square root on the degrees and `rsqrt` its reciprocal. -/
theorem zero_eigenvalue_all_formulations (sqrt rsqrt : α → α) (A : Matrix (Fin n) (Fin n) α)
    (hn : 1 ≤ n) (hdeg : ∀ i, 0 < rowwiseSum A i)
    (hsqrt : ∀ i, 0 ≤ sqrt (rowwiseSum A i) ∧
      sqrt (rowwiseSum A i) * sqrt (rowwiseSum A i) = rowwiseSum A i)
    (hrsqrt : ∀ i, rsqrt (rowwiseSum A i) = 1 / sqrt (rowwiseSum A i)) :
    (fun _ => 1 : Fin n → α) ≠ 0 ∧
      Matrix.mulVec (L_unnormalized A) (fun _ => 1) = 0 ∧
      Matrix.mulVec (L_unnormalized A) (fun _ => 1)
        = (0 : α) • Matrix.mulVec (D A) (fun _ => 1) ∧
      (fun i => sqrt (rowwiseSum A i)) ≠ 0 ∧
      Matrix.mulVec (L_normalized_symmetric rsqrt A) (fun i => sqrt (rowwiseSum A i)) = 0 := by
  have hones : Matrix.mulVec (L_unnormalized A) (fun _ => 1) = 0 := by
    funext i
    rw [L_unnormalized_mulVec]
    simp [rowwiseSum]
  have hs0 : ∀ i, sqrt (rowwiseSum A i) ≠ 0 := by
    intro i h0
    have h := (hsqrt i).2
    rw [h0, mul_zero] at h
    exact absurd h (ne_of_lt (hdeg i))
  refine ⟨?_, hones, ?_, ?_, ?_⟩
  · intro h
    have := congrFun h ⟨0, hn⟩
    simp at this
  · rw [hones, zero_smul]
  · intro h
    exact hs0 ⟨0, hn⟩ (congrFun h ⟨0, hn⟩)
  · have h1 : Matrix.mulVec (Dtm12 rsqrt A) (fun i => sqrt (rowwiseSum A i))
        = fun _ => 1 := by
      funext j
      simp only [Dtm12, Matrix.mulVec_diagonal, hrsqrt j]
      exact one_div_mul_cancel (hs0 j)
    have h2 : Matrix.mulVec A (fun _ => 1) = rowwiseSum A := by
      funext i
      simp [Matrix.mulVec, Matrix.dotProduct, rowwiseSum]
    funext i
    simp only [L_normalized_symmetric, Matrix.sub_mulVec, Matrix.one_mulVec,
      ← Matrix.mulVec_mulVec, h1, h2, Pi.sub_apply, Pi.zero_apply]
    simp only [Dtm12, Matrix.mulVec_diagonal, hrsqrt i]
    have h3 := (hsqrt i).2
    have h4 := hs0 i
    rw [sub_eq_zero]
    field_simp
    exact h3

/-- Witness for C12: two points joined by a unit edge, over the reals with the real square
root and its reciprocal. -/
theorem zero_eigenvalue_all_formulations_witness :
    1 ≤ 2 ∧
      (∀ i, 0 < rowwiseSum (fun i j => if i = j then 0 else 1 : Matrix (Fin 2) (Fin 2) ℝ) i) ∧
      ((fun _ => 1 : Fin 2 → ℝ) ≠ 0 ∧
        Matrix.mulVec
          (L_unnormalized (fun i j => if i = j then 0 else 1 : Matrix (Fin 2) (Fin 2) ℝ))
          (fun _ => 1) = 0 ∧
        Matrix.mulVec
          (L_unnormalized (fun i j => if i = j then 0 else 1 : Matrix (Fin 2) (Fin 2) ℝ))
          (fun _ => 1)
          = (0 : ℝ) • Matrix.mulVec
            (D (fun i j => if i = j then 0 else 1 : Matrix (Fin 2) (Fin 2) ℝ)) (fun _ => 1) ∧
        (fun i => Real.sqrt
          (rowwiseSum (fun i j => if i = j then 0 else 1 : Matrix (Fin 2) (Fin 2) ℝ) i)) ≠ 0 ∧
        Matrix.mulVec
          (L_normalized_symmetric (fun x => 1 / Real.sqrt x)
            (fun i j => if i = j then 0 else 1 : Matrix (Fin 2) (Fin 2) ℝ))
          (fun i => Real.sqrt
            (rowwiseSum (fun i j => if i = j then 0 else 1 : Matrix (Fin 2) (Fin 2) ℝ) i))
          = 0) := by
  have hdeg : ∀ i,
      0 < rowwiseSum (fun i j => if i = j then 0 else 1 : Matrix (Fin 2) (Fin 2) ℝ) i := by
    intro i
    fin_cases i <;> simp [rowwiseSum, Fin.sum_univ_two]
  exact ⟨by decide, hdeg,
    zero_eigenvalue_all_formulations Real.sqrt (fun x => 1 / Real.sqrt x)
      (fun i j => if i = j then 0 else 1 : Matrix (Fin 2) (Fin 2) ℝ) (by decide) hdeg
      (fun i => ⟨Real.sqrt_nonneg _, Real.mul_self_sqrt (le_of_lt (hdeg i))⟩)
      (fun _ => rfl)⟩

/-- C17: when all degrees are strictly positive, the explicit random-walk Laplacian
`I - D^(-1) A` is `D^(-1) (D - A)`, and a nonzero `x` solves the generalized problem
`(D - A) x = μ D x` handed to the generalized solver exactly when it is an eigenvector of
`I - D^(-1) A` with eigenvalue `μ`. -/
theorem random_walk_generalized_iff (A : Matrix (Fin n) (Fin n) α)
    (hdeg : ∀ i, 0 < rowwiseSum A i) (μ : α) (x : Fin n → α) :
    L_random_walk A
        = Matrix.diagonal (fun i => (rowwiseSum A i)⁻¹) * L_unnormalized A ∧
      ((x ≠ 0 ∧ Matrix.mulVec (L_unnormalized A) x = μ • Matrix.mulVec (D A) x) ↔
        (x ≠ 0 ∧ Matrix.mulVec (L_random_walk A) x = μ • x)) := by
  have hne : ∀ i, rowwiseSum A i ≠ 0 := fun i => ne_of_gt (hdeg i)
  have hform : L_random_walk A
      = Matrix.diagonal (fun i => (rowwiseSum A i)⁻¹) * L_unnormalized A := by
    unfold L_random_walk L_unnormalized D
    rw [Matrix.mul_sub, Matrix.diagonal_mul_diagonal]
    have h1 : (fun i => (rowwiseSum A i)⁻¹ * rowwiseSum A i) = fun _ => (1 : α) := by
      funext i
      exact inv_mul_cancel₀ (hne i)
    rw [h1, Matrix.diagonal_one]
  have hrw : ∀ i, Matrix.mulVec (L_random_walk A) x i
      = (rowwiseSum A i)⁻¹ * Matrix.mulVec (L_unnormalized A) x i := by
    intro i
    rw [hform, ← Matrix.mulVec_mulVec, Matrix.mulVec_diagonal]
  have hD : ∀ i, Matrix.mulVec (D A) x i = rowwiseSum A i * x i := by
    intro i
    simp only [D, Matrix.mulVec_diagonal]
  refine ⟨hform, and_congr_right (fun _ => ?_)⟩
  constructor
  · intro h
    funext i
    rw [hrw, h, Pi.smul_apply, Pi.smul_apply, hD, smul_eq_mul, smul_eq_mul]
    have hi := hne i
    field_simp
    ring
  · intro h
    funext i
    have hi := congrFun h i
    rw [hrw, Pi.smul_apply, smul_eq_mul] at hi
    rw [Pi.smul_apply, hD, smul_eq_mul]
    have hmul : Matrix.mulVec (L_unnormalized A) x i
        = rowwiseSum A i * ((rowwiseSum A i)⁻¹ * Matrix.mulVec (L_unnormalized A) x i) := by
      rw [← mul_assoc, mul_inv_cancel₀ (hne i), one_mul]
    rw [hmul, hi]
    ring

/-- Witness for C17: two points joined by a unit edge, eigenvalue `2`, vector `(1, -1)`. -/
theorem random_walk_generalized_iff_witness :
    (∀ i, 0 < rowwiseSum pairAffinity i) ∧
      (L_random_walk pairAffinity
          = Matrix.diagonal (fun i => (rowwiseSum pairAffinity i)⁻¹)
            * L_unnormalized pairAffinity ∧
        (((![1, -1] : Fin 2 → ℚ) ≠ 0 ∧
            Matrix.mulVec (L_unnormalized pairAffinity) ![1, -1]
              = (2 : ℚ) • Matrix.mulVec (D pairAffinity) ![1, -1]) ↔
          ((![1, -1] : Fin 2 → ℚ) ≠ 0 ∧
            Matrix.mulVec (L_random_walk pairAffinity) ![1, -1] = (2 : ℚ) • ![1, -1]))) := by
  have hdeg : ∀ i, 0 < rowwiseSum pairAffinity i := by
    intro i
    fin_cases i <;> simp [rowwiseSum, pairAffinity, Fin.sum_univ_two]
  exact ⟨hdeg, random_walk_generalized_iff pairAffinity hdeg 2 ![1, -1]⟩

end Spectral

/-! ## Reordering the points -/

section Permutation

open Polynomial

variable {α : Type} [LinearOrderedField α] {n : Nat}

end Permutation

end cilantro
